import Mathlib

/-!
Verification of the LocalTranslator subtitle pipeline (`src/app.py`).

The development shallowly embeds the pure core of the program:

* `SrtParser.parse_srt` / `SrtParser.format_srt` / `SrtParser.create_batches`
  (the subtitle document model and the batch planner);
* the batch reconciliation step of `TranslationWorker._translate_subtitles`
  (the `re.split`-based marker extraction, gap-filling and sorting), here
  `reconcileBatch`;
* the reconciliation step of the `re.findall`-based variant that lives on
  `KoboldCppClient._translate_subtitles` (primary extraction plus the
  non-empty-line fallback), here `reconcileBatchClient`;
* the worker's subtitle run loop (cancellation check, backend call,
  per-batch events, failure propagation), here `runSubtitles`.

Strings are modelled as Lean `String`s (lists of characters); Python's
`int` is `Int`.  Python regular expressions used by the source are
deterministic on their patterns and are implemented by direct character
scanning with the same semantics; `\d`, `\s` and `[A-Z]` are modelled over
ASCII.  The floating-point ratio test `0.5 <= a/b <= 2.0` of the fallback
path is modelled by the exact rational inequalities `b ≤ 2a ∧ a ≤ 2b`,
which agree with the float computation on the inputs exercised here;
the `ZeroDivisionError` it raises on an empty batch is modelled by
returning `none`.
-/

namespace LocalTranslator

/-- Whitespace as recognized by Python's `str.strip()` and the regex class
`\s` (ASCII part). -/
def isPyWS (c : Char) : Bool :=
  c == ' ' || c == '\t' || c == '\n' || c == '\r' || c == '\x0b' || c == '\x0c'

/-- Python `str.strip()`: drop leading and trailing whitespace. -/
def pyStrip (l : List Char) : List Char :=
  ((l.dropWhile isPyWS).reverse.dropWhile isPyWS).reverse

/-- Python `str.split('\n')`: always at least one (possibly empty) piece,
interior empty pieces kept. -/
def splitNl : List Char → List (List Char)
  | [] => [[]]
  | c :: rest =>
    if c = '\n' then [] :: splitNl rest
    else
      match splitNl rest with
      | [] => [[c]]
      | b :: bs => (c :: b) :: bs

/-- Python `'\n'.join(...)`. -/
def joinNl : List (List Char) → List Char
  | [] => []
  | [l] => l
  | l :: l2 :: ls => l ++ '\n' :: joinNl (l2 :: ls)

/-- Numeric value of an ASCII digit character. -/
def digitVal (c : Char) : Nat := c.toNat - 48

/-- The ASCII digit character for `n < 10`. -/
def digitChar : Nat → Char
  | 0 => '0' | 1 => '1' | 2 => '2' | 3 => '3' | 4 => '4'
  | 5 => '5' | 6 => '6' | 7 => '7' | 8 => '8' | _ => '9'

/-- Decimal digits of a natural number (fueled; `natDigits` supplies enough
fuel).  Mirrors Python's decimal formatting of a non-negative `int`. -/
def natDigitsAux : Nat → Nat → List Char
  | 0, _ => []
  | fuel + 1, n =>
    if n < 10 then [digitChar n]
    else natDigitsAux fuel (n / 10) ++ [digitChar (n % 10)]

/-- Decimal digit string of a natural number. -/
def natDigits (n : Nat) : List Char := natDigitsAux (n + 1) n

/-- Python `f"{i}"` for an `int i`: decimal representation, `-` sign for
negative numbers. -/
def intRepr (i : Int) : List Char :=
  if i < 0 then '-' :: natDigits (-i).toNat else natDigits i.toNat

/-- Digit-sequence part of Python `int(str)`: digits with single
underscores allowed between digits.  The accumulator is `some n` once at
least one digit has been consumed. -/
def pyDigitsAux : List Char → Option Nat → Option Nat
  | [], acc => acc
  | c :: rest, acc =>
    if c.isDigit then pyDigitsAux rest (some (acc.getD 0 * 10 + digitVal c))
    else if c = '_' then
      match acc, rest with
      | some n, d :: _ => if d.isDigit then pyDigitsAux rest (some n) else none
      | _, _ => none
    else none

/-- Sign-and-digits part of Python `int(str)` (after stripping). -/
def pySignedDigits : List Char → Option Int
  | [] => none
  | c :: cs =>
    if c = '-' then (pyDigitsAux cs none).map (fun n => -(n : Int))
    else if c = '+' then (pyDigitsAux cs none).map (fun n => (n : Int))
    else (pyDigitsAux (c :: cs) none).map (fun n => (n : Int))

/-- Python `int(str)` (ASCII): strip whitespace, optional sign, decimal
digits; `none` models the `ValueError`. -/
def pyInt? (l : List Char) : Option Int :=
  pySignedDigits (pyStrip l)

/-- Value of a nonempty ASCII digit string (used for regex group `(\d+)`,
where Python's `int` cannot fail). -/
def digitsToNat (ds : List Char) : Nat :=
  ds.foldl (fun a c => a * 10 + digitVal c) 0

/-- A subtitle entry, as produced by `SrtParser.parse_srt`
(`{'number': int, 'start_time': str, 'end_time': str, 'text': str}`). -/
structure Subtitle where
  number : Int
  start_time : String
  end_time : String
  text : String
deriving DecidableEq, Repr

/-! ### The SRT document model (`SrtParser`) -/

/-- One step of the blank-line separator `\n\s*\n`: consume
`(whitespace-other-than-newline)* '\n'`, or fail consuming nothing. -/
def sepTail (l : List Char) : Option (List Char) :=
  let l' := l.dropWhile (fun c => isPyWS c && c != '\n')
  if l'.head? = some '\n' then some l'.tail else none

/-- Greedily consume further `sepTail` steps (fuel-bounded). -/
def sepManyAux : Nat → List Char → List Char
  | 0, l => l
  | fuel + 1, l =>
    match sepTail l with
    | some r => sepManyAux fuel r
    | none => l

/-- Match of the separator regex `\n\s*\n` at the head of `l` (with the
greedy backtracking semantics of `re`): an initial `'\n'`, then at least
one `sepTail` step, extended as far as possible.  Returns the remainder
after the matched separator. -/
def sepMatch (l : List Char) : Option (List Char) :=
  if l.head? = some '\n' then
    match sepTail l.tail with
    | some r => some (sepManyAux r.length r)
    | none => none
  else none

/-- `re.split(r'\n\s*\n', ·)` by left-to-right scanning (fueled). -/
def splitBlocksAux : Nat → List Char → List (List Char)
  | 0, l => [l]
  | fuel + 1, l =>
    match l with
    | [] => [[]]
    | c :: rest =>
      match sepMatch (c :: rest) with
      | some r => [] :: splitBlocksAux fuel r
      | none =>
        match splitBlocksAux fuel rest with
        | [] => [[c]]
        | b :: bs => (c :: b) :: bs

/-- `re.split(r'\n\s*\n', ·)`. -/
def splitBlocks (l : List Char) : List (List Char) :=
  splitBlocksAux (l.length + 1) l

/-- Exact shape `\d\d:\d\d:\d\d,\d\d\d` (one timestamp, 12 characters). -/
def validTimeL : List Char → Bool
  | [h1, h2, c1, m1, m2, c2, s1, s2, comma, t1, t2, t3] =>
    h1.isDigit && h2.isDigit && c1 == ':' && m1.isDigit && m2.isDigit &&
    c2 == ':' && s1.isDigit && s2.isDigit && comma == ',' &&
    t1.isDigit && t2.isDigit && t3.isDigit
  | _ => false

/-- The five characters of the literal `" --> "`. -/
def arrowSep : List Char := [' ', '-', '-', '>', ' ']

/-- `re.match(r'(\d{2}:\d{2}:\d{2},\d{3}) --> (\d{2}:\d{2}:\d{2},\d{3})', line)`:
a prefix match returning the two captured timestamps (trailing characters of
the line are ignored, as `re.match` does not anchor the end). -/
def tsMatch (l : List Char) : Option (List Char × List Char) :=
  let t1 := l.take 12
  if validTimeL t1 then
    let r1 := l.drop 12
    if r1.take 5 = arrowSep then
      let t2 := (r1.drop 5).take 12
      if validTimeL t2 then some (t1, t2) else none
    else none
  else none

/-- Processing of one block inside `SrtParser.parse_srt`: skip the block
(`none`) unless it has at least three lines, an integer first line and a
timestamp second line; remaining lines joined become the text. -/
def parseBlock (block : List Char) : Option Subtitle :=
  let b := pyStrip block
  if b = [] then none
  else
    let lines := splitNl b
    if lines.length < 3 then none
    else
      match lines with
      | l0 :: l1 :: rest =>
        match pyInt? (pyStrip l0) with
        | none => none
        | some n =>
          match tsMatch l1 with
          | none => none
          | some (t1, t2) =>
            some ⟨n, String.mk t1, String.mk t2, String.mk (joinNl rest)⟩
      | _ => none

/-- `SrtParser.parse_srt`. -/
def parse_srt (s : String) : List Subtitle :=
  (splitBlocks (pyStrip s.data)).filterMap parseBlock

/-- The four lines a single entry contributes in `SrtParser.format_srt`
(number, timestamp line, text, blank separator). -/
def entryLines (e : Subtitle) : List (List Char) :=
  [intRepr e.number, e.start_time.data ++ arrowSep ++ e.end_time.data,
   e.text.data, []]

/-- `SrtParser.format_srt`. -/
def format_srt (es : List Subtitle) : String :=
  String.mk (joinNl (es.map entryLines).flatten)

/-- The single block an entry contributes to the formatted document
(number line, timestamp line, text — without the blank separator). -/
def entryBlock (e : Subtitle) : List Char :=
  intRepr e.number ++ '\n' ::
    (e.start_time.data ++ arrowSep ++ e.end_time.data) ++ '\n' :: e.text.data

/-- Join blocks with one blank line (`"\n\n"`) between consecutive blocks. -/
def sep2Join : List (List Char) → List Char
  | [] => []
  | [b] => b
  | b :: b2 :: bs => b ++ '\n' :: '\n' :: sep2Join (b2 :: bs)

/-- Does a line contain a non-whitespace character? -/
def nonBlank (l : List Char) : Bool :=
  l.any (fun c => !(isPyWS c))

/-- The explicit well-formedness conditions of an entry: valid
`HH:MM:SS,mmm` timestamps and a text none of whose lines is empty or
whitespace-only. -/
def entryWF (e : Subtitle) : Bool :=
  validTimeL e.start_time.data && validTimeL e.end_time.data &&
  (splitNl e.text.data).all nonBlank

/-- Does the character list end in a non-whitespace character (vacuously
true for the empty list)? -/
def lastCharOk (l : List Char) : Bool :=
  match l.getLast? with
  | some c => !(isPyWS c)
  | none => true

/-- A fully canonical entry: well-formed fields and a text that does not
end in whitespace (trailing whitespace of the final text line is the part
of a block that `block.strip()` in the parser cannot preserve). -/
def entryCanonical (e : Subtitle) : Bool :=
  entryWF e && lastCharOk e.text.data

/-- A raw document is fully well-formed per the §4.1 grammar when it is
generated by the grammar: blocks of a canonical integer number line, an
exact timestamp line and non-blank text lines, separated by single blank
lines — i.e. it is the serialization of some list of canonical entries. -/
def wellFormedSrt (x : String) : Prop :=
  ∃ es : List Subtitle, (∀ e ∈ es, entryCanonical e = true) ∧ x = format_srt es

/-- Fueled chunking `[subtitles[i:i+batch_size] for i in range(0, len, batch_size)]`. -/
def chunkAux {α : Type} : Nat → List α → Nat → List (List α)
  | 0, _, _ => []
  | fuel + 1, l, bs =>
    match l with
    | [] => []
    | x :: xs => (x :: xs).take bs :: chunkAux fuel ((x :: xs).drop bs) bs

/-- Chunking with enough fuel (meaningful for `bs ≥ 1`). -/
def chunkList {α : Type} (l : List α) (bs : Nat) : List (List α) :=
  chunkAux (l.length + 1) l bs

/-- `SrtParser.create_batches`.  `batch_size = 0` makes Python's
`range(0, len, 0)` raise `ValueError` (modelled by `none`); a negative
`batch_size` makes the range empty, silently yielding `[]`. -/
def create_batches (subs : List Subtitle) (batch_size : Int) :
    Option (List (List Subtitle)) :=
  if batch_size = 0 then none
  else if batch_size < 0 then some []
  else some (chunkList subs batch_size.toNat)

/-! ### Marker extraction and reconciliation -/

/-- Match of `\[(\d+)\]` at the head of `l`: `'['`, a maximal nonempty
digit run, `']'`.  Returns the marker number and the remainder. -/
def markerMatch (l : List Char) : Option (Nat × List Char) :=
  if l.head? = some '[' then
    let ds := l.tail.takeWhile Char.isDigit
    if ds = [] then none
    else if (l.tail.drop ds.length).head? = some ']' then
      some (digitsToNat ds, (l.tail.drop ds.length).tail)
    else none
  else none

/-- Left-to-right scan for `\[(\d+)\]` markers (fueled).  Returns the text
before the first marker together with the list of
`(marker number, text up to the next marker or end)` pairs — exactly the
information in `re.split(r'\[(\d+)\]', text)`. -/
def scanMarkersAux : Nat → List Char → List Char × List (Nat × List Char)
  | 0, l => (l, [])
  | fuel + 1, l =>
    match l with
    | [] => ([], [])
    | c :: rest =>
      match markerMatch (c :: rest) with
      | some (n, r) =>
        let p := scanMarkersAux fuel r
        ([], (n, p.1) :: p.2)
      | none =>
        let p := scanMarkersAux fuel rest
        (c :: p.1, p.2)

/-- The `(number, following content)` pairs of `re.split(r'\[(\d+)\]', ·)`,
which the worker's `while` loop walks over (the loop visits every pair). -/
def scanMarkers (l : List Char) : List (Nat × List Char) :=
  (scanMarkersAux (l.length + 1) l).2

/-- The marker-processing loop of `TranslationWorker._translate_subtitles`:
for each marker pair, find the first batch entry with that number and
append a copy with the stripped content as text; markers whose number is
not in the batch are skipped. -/
def translateByMarkers (batch : List Subtitle)
    (pairs : List (Nat × List Char)) : List Subtitle :=
  pairs.foldl
    (fun acc p =>
      match batch.find? (fun s => decide (s.number = (p.1 : Int))) with
      | some s => acc ++ [{ s with text := String.mk (pyStrip p.2) }]
      | none => acc)
    []

/-- The gap-filling loop: batch entries whose number is not among the
numbers of the already-produced translations are appended unchanged
(`batch_numbers` is computed once, before appending). -/
def gapFill (batch tb : List Subtitle) : List Subtitle :=
  tb ++ batch.filter (fun s => decide (s.number ∉ tb.map Subtitle.number))

/-- Stable insertion (ascending by `number`). -/
def insertByNum (x : Subtitle) : List Subtitle → List Subtitle
  | [] => [x]
  | y :: ys => if x.number ≤ y.number then x :: y :: ys else y :: insertByNum x ys

/-- `translated_batch.sort(key=lambda x: x['number'])`: stable ascending
sort by entry number. -/
def sortByNumber : List Subtitle → List Subtitle
  | [] => []
  | x :: xs => insertByNum x (sortByNumber xs)

/-- The per-batch reconciliation step of
`TranslationWorker._translate_subtitles` (lines 348–377): `re.split`
marker extraction, gap-filling with original entries, sort by number. -/
def reconcileBatch (batch : List Subtitle) (resp : String) : List Subtitle :=
  sortByNumber (gapFill batch (translateByMarkers batch (scanMarkers resp.data)))

/-- The pairs produced by
`re.findall(r'\[(\d+)\]\s*(.*?)(?=\[\d+\]|\Z)', text + "\n", re.DOTALL)`:
the same markers as `scanMarkers` on `text + "\n"`, each content with the
leading whitespace removed by the greedy `\s*`. -/
def findallPairs (l : List Char) : List (Nat × List Char) :=
  (scanMarkers (l ++ ['\n'])).map (fun p => (p.1, p.2.dropWhile isPyWS))

/-- Does a line start with an ASCII capital letter (`re.match(r'^[A-Z]', ·)`)? -/
def startsUpper : List Char → Bool
  | c :: _ => 'A' ≤ c && c ≤ 'Z'
  | [] => false

/-- The sentence-merging loop of the client fallback: a line starting with
a capital letter begins a new sentence when one is already accumulating;
otherwise lines are joined with single spaces. -/
def combineAux : List (List Char) → List Char → List (List Char)
  | [], cur => if cur = [] then [] else [cur]
  | line :: rest, cur =>
    if startsUpper line && cur != [] then
      cur :: combineAux rest line
    else
      combineAux rest (if cur = [] then line else cur ++ [' '] ++ line)

/-- Merge non-empty lines into "sentences" (client fallback, uneven case). -/
def combineLines (ls : List (List Char)) : List (List Char) :=
  combineAux ls []

/-- The non-empty lines of the response
(`[line for line in translated_text.split('\n') if line.strip()]`). -/
def nonEmptyLines (resp : String) : List (List Char) :=
  (splitNl resp.data).filter (fun l => pyStrip l ≠ [])

/-- The per-batch reconciliation step of the `re.findall` variant on
`KoboldCppClient._translate_subtitles` (lines 207–279): primary marker
extraction, else the non-empty-line fallback guarded by the line/entry
ratio test; `none` models the `ZeroDivisionError` raised when the ratio is
computed for an empty batch. -/
def reconcileBatchClient (batch : List Subtitle) (resp : String) :
    Option (List Subtitle) :=
  let pairs := findallPairs resp.data
  if pairs = [] then
    let nonEmpty := nonEmptyLines resp
    if batch = [] then none
    else
      let tb :=
        if batch.length ≤ 2 * nonEmpty.length ∧ nonEmpty.length ≤ 2 * batch.length then
          if nonEmpty.length = batch.length then
            (batch.zip nonEmpty).map
              (fun p => { p.1 with text := String.mk (pyStrip p.2) })
          else
            let cl := combineLines nonEmpty
            batch.enum.map (fun p =>
              match cl.get? p.1 with
              | some c => { p.2 with text := String.mk (pyStrip c) }
              | none => p.2)
        else []
      some (sortByNumber (gapFill batch tb))
  else
    some (sortByNumber (gapFill batch (translateByMarkers batch pairs)))

/-! ### The worker's subtitle run loop -/

/-- The notifications (Qt signals) the worker emits during a subtitle job. -/
inductive Event where
  | batchCompleted (idx : Nat) (entries : List Subtitle)
  | progress (pct : Nat)
  | finished (ok : Bool) (msg : String)
deriving DecidableEq, Repr

/-- The batch loop of `TranslationWorker._translate_subtitles`, over a
deterministic backend oracle `client` (result of the `translate_text` call
for each batch index) and the observed cancellation flag `abortFlag` at
each pre-batch check.  Returns the emitted events and the indices of the
batches actually sent to the backend.  `time.sleep` has no observable
effect and is omitted. -/
def runAux (client : Nat → Bool × String) (abortFlag : Nat → Bool)
    (total : Nat) : Nat → List (List Subtitle) → List Subtitle →
    List Event × List Nat
  | _, [], acc => ([Event.finished true (format_srt acc)], [])
  | idx, b :: bs, acc =>
    if abortFlag idx then ([Event.finished false "Translation aborted"], [])
    else
      match client idx with
      | (true, txt) =>
        let tb := reconcileBatch b txt
        let p := runAux client abortFlag total (idx + 1) bs (acc ++ tb)
        (Event.batchCompleted idx tb :: Event.progress ((idx + 1) * 100 / total) :: p.1,
         idx :: p.2)
      | (false, txt) =>
        ([Event.finished false ("Translation failed: " ++ txt)], [idx])

/-- `TranslationWorker._translate_subtitles` for a subtitle job with the
given entries and batch size. -/
def runSubtitles (client : Nat → Bool × String) (abortFlag : Nat → Bool)
    (subs : List Subtitle) (batchSize : Nat) : List Event × List Nat :=
  let batches := chunkList subs batchSize
  runAux client abortFlag batches.length 0 batches []

/-! ### Character and digit lemmas -/

lemma ws_chars {c : Char} (h : isPyWS c = true) :
    c = ' ' ∨ c = '\t' ∨ c = '\n' ∨ c = '\r' ∨ c = '\x0b' ∨ c = '\x0c' := by
  have h' := h
  simp only [isPyWS, Bool.or_eq_true, beq_iff_eq] at h'
  tauto

lemma isDigit_not_ws {c : Char} (h : c.isDigit = true) : isPyWS c = false := by
  cases hw : isPyWS c
  · rfl
  · rcases ws_chars hw with rfl | rfl | rfl | rfl | rfl | rfl <;> exact absurd h (by decide)

lemma isDigit_ne_nl {c : Char} (h : c.isDigit = true) : c ≠ '\n' := by
  intro hc
  rw [hc] at h
  exact absurd h (by decide)

lemma isDigit_ne_dash {c : Char} (h : c.isDigit = true) : c ≠ '-' := by
  intro hc
  rw [hc] at h
  exact absurd h (by decide)

lemma isDigit_ne_plus {c : Char} (h : c.isDigit = true) : c ≠ '+' := by
  intro hc
  rw [hc] at h
  exact absurd h (by decide)

lemma digitChar_isDigit (n : Nat) : (digitChar n).isDigit = true := by
  unfold digitChar; split <;> decide

lemma digitVal_digitChar {n : Nat} (h : n < 10) : digitVal (digitChar n) = n := by
  interval_cases n <;> decide

/-! ### Decimal representation round trip -/

lemma natDigitsAux_ne_nil {fuel n : Nat} (h : n < fuel) : natDigitsAux fuel n ≠ [] := by
  cases fuel with
  | zero => omega
  | succ f =>
    unfold natDigitsAux
    split
    · simp
    · simp

lemma natDigitsAux_all_digit {fuel n : Nat} :
    ∀ c ∈ natDigitsAux fuel n, c.isDigit = true := by
  induction fuel generalizing n with
  | zero => intro c hc; simp [natDigitsAux] at hc
  | succ f ih =>
    intro c hc
    unfold natDigitsAux at hc
    split at hc
    · simp only [List.mem_singleton] at hc
      subst hc
      exact digitChar_isDigit _
    · rcases List.mem_append.mp hc with h | h
      · exact ih _ h
      · simp only [List.mem_singleton] at h
        subst h
        exact digitChar_isDigit _

lemma natDigitsAux_foldl {fuel n : Nat} (h : n < fuel) (a : Nat) :
    (natDigitsAux fuel n).foldl (fun x c => x * 10 + digitVal c) a =
      a * 10 ^ (natDigitsAux fuel n).length + n := by
  induction fuel generalizing n a with
  | zero => omega
  | succ f ih =>
    by_cases h10 : n < 10
    · simp [natDigitsAux, h10, List.foldl, digitVal_digitChar h10]
    · have hn0 : 0 < n := by omega
      have hdiv : n / 10 < n := Nat.div_lt_self hn0 (by norm_num)
      have hf : n / 10 < f := by omega
      have hdm := Nat.div_add_mod n 10
      have hmod : n % 10 < 10 := Nat.mod_lt _ (by norm_num)
      simp only [natDigitsAux, if_neg h10]
      rw [List.foldl_append, ih hf a]
      simp only [List.foldl, digitVal_digitChar hmod, List.length_append,
        List.length_singleton]
      rw [pow_succ]
      ring_nf
      omega

lemma natDigits_ne_nil (n : Nat) : natDigits n ≠ [] :=
  natDigitsAux_ne_nil (by omega)

lemma natDigits_all_digit (n : Nat) : ∀ c ∈ natDigits n, c.isDigit = true :=
  natDigitsAux_all_digit

lemma natDigits_foldl (n a : Nat) :
    (natDigits n).foldl (fun x c => x * 10 + digitVal c) a =
      a * 10 ^ (natDigits n).length + n :=
  natDigitsAux_foldl (by omega) a

lemma pyDigitsAux_some {l : List Char} (h : ∀ c ∈ l, c.isDigit = true) (a : Nat) :
    pyDigitsAux l (some a) =
      some (l.foldl (fun x c => x * 10 + digitVal c) a) := by
  induction l generalizing a with
  | nil => rfl
  | cons c r ih =>
    have hc : c.isDigit = true := h c (by simp)
    simp only [pyDigitsAux, hc, if_pos, Option.getD_some, List.foldl]
    exact ih (fun d hd => h d (by simp [hd])) _

lemma pyDigitsAux_digits {l : List Char} (hne : l ≠ [])
    (h : ∀ c ∈ l, c.isDigit = true) :
    pyDigitsAux l none = some (l.foldl (fun x c => x * 10 + digitVal c) 0) := by
  cases l with
  | nil => exact absurd rfl hne
  | cons c r =>
    have hc : c.isDigit = true := h c (by simp)
    simp only [pyDigitsAux, hc, if_pos, Option.getD_none, List.foldl,
      Nat.zero_mul, Nat.zero_add]
    rw [pyDigitsAux_some (fun d hd => h d (by simp [hd]))]

lemma pyDigits_natDigits (n : Nat) : pyDigitsAux (natDigits n) none = some n := by
  rw [pyDigitsAux_digits (natDigits_ne_nil n) (natDigits_all_digit n),
    natDigits_foldl]
  simp

/-! ### `pyStrip` -/

lemma dropWhile_eq_self_of_head {p : Char → Bool} {l : List Char}
    (h : ∀ c, l.head? = some c → p c = false) : l.dropWhile p = l := by
  cases l with
  | nil => rfl
  | cons c cs => simp [List.dropWhile_cons, h c rfl]

lemma pyStrip_eq_self {l : List Char}
    (h1 : ∀ c, l.head? = some c → isPyWS c = false)
    (h2 : ∀ c, l.getLast? = some c → isPyWS c = false) : pyStrip l = l := by
  unfold pyStrip
  rw [dropWhile_eq_self_of_head h1,
    dropWhile_eq_self_of_head (fun c hc => h2 c (by rwa [List.head?_reverse] at hc)),
    List.reverse_reverse]

lemma intRepr_mem {i : Int} : ∀ c ∈ intRepr i, c.isDigit = true ∨ c = '-' := by
  intro c hc
  unfold intRepr at hc
  split at hc
  · rcases List.mem_cons.mp hc with rfl | h
    · right; rfl
    · exact Or.inl (natDigits_all_digit _ _ h)
  · exact Or.inl (natDigits_all_digit _ _ hc)

lemma intRepr_not_ws {i : Int} : ∀ c ∈ intRepr i, isPyWS c = false := by
  intro c hc
  rcases intRepr_mem c hc with h | rfl
  · exact isDigit_not_ws h
  · decide

lemma intRepr_ne_nil (i : Int) : intRepr i ≠ [] := by
  unfold intRepr
  split
  · simp
  · exact natDigits_ne_nil _

lemma intRepr_no_nl {i : Int} : '\n' ∉ intRepr i := by
  intro h
  rcases intRepr_mem _ h with h' | h'
  · exact isDigit_ne_nl h' rfl
  · exact absurd h' (by decide)

lemma pyStrip_intRepr (i : Int) : pyStrip (intRepr i) = intRepr i :=
  pyStrip_eq_self
    (fun c hc => intRepr_not_ws c (List.mem_of_mem_head? hc))
    (fun c hc => intRepr_not_ws c (List.mem_of_mem_getLast? hc))

lemma pyInt_intRepr (i : Int) : pyInt? (intRepr i) = some i := by
  unfold pyInt?
  rw [pyStrip_intRepr]
  by_cases hneg : i < 0
  · have hmk : intRepr i = '-' :: natDigits (-i).toNat := by
      unfold intRepr; rw [if_pos hneg]
    rw [hmk]
    have hv : (((-i).toNat : Int)) = -i := Int.toNat_of_nonneg (by omega)
    simp [pySignedDigits, pyDigits_natDigits, hv]
  · have hmk : intRepr i = natDigits i.toNat := by
      unfold intRepr; rw [if_neg hneg]
    obtain ⟨c, cs, hcons⟩ := List.exists_cons_of_ne_nil (intRepr_ne_nil i)
    have hcdig : c.isDigit = true := by
      rcases intRepr_mem c (by rw [hcons]; simp) with h | h
      · exact h
      · exfalso
        have hd := natDigits_all_digit i.toNat c (by rw [← hmk, hcons]; simp)
        exact isDigit_ne_dash hd h
    have hv : ((i.toNat : Int)) = i := Int.toNat_of_nonneg (by omega)
    rw [hcons]
    simp only [pySignedDigits, if_neg (isDigit_ne_dash hcdig),
      if_neg (isDigit_ne_plus hcdig)]
    rw [← hcons, hmk]
    simp [pyDigits_natDigits, hv]

/-! ### `splitNl` / `joinNl` -/

lemma splitNl_ne_nil (l : List Char) : splitNl l ≠ [] := by
  cases l with
  | nil => simp [splitNl]
  | cons c rest =>
    unfold splitNl
    split
    · simp
    · split <;> simp

lemma joinNl_cons (c : List Char) (b : List Char) (bs : List (List Char)) :
    joinNl ((c ++ b) :: bs) = c ++ joinNl (b :: bs) := by
  cases bs with
  | nil => simp [joinNl]
  | cons b2 bs' => simp [joinNl]

lemma splitNl_no_nl {a : List Char} (h : '\n' ∉ a) : splitNl a = [a] := by
  induction a with
  | nil => rfl
  | cons c rest ih =>
    have hc : c ≠ '\n' := fun hc => h (hc ▸ List.mem_cons_self c rest)
    have hr : '\n' ∉ rest := fun hm => h (List.mem_cons_of_mem _ hm)
    unfold splitNl
    rw [if_neg hc, ih hr]

lemma splitNl_append {a : List Char} (h : '\n' ∉ a) (r : List Char) :
    splitNl (a ++ '\n' :: r) = a :: splitNl r := by
  induction a with
  | nil => simp [splitNl]
  | cons c rest ih =>
    have hc : c ≠ '\n' := fun hc => h (hc ▸ List.mem_cons_self c rest)
    have hr : '\n' ∉ rest := fun hm => h (List.mem_cons_of_mem _ hm)
    rw [List.cons_append]
    simp only [splitNl]
    rw [if_neg hc, ih hr]

lemma joinNl_splitNl (l : List Char) : joinNl (splitNl l) = l := by
  induction l with
  | nil => rfl
  | cons c rest ih =>
    obtain ⟨b, bs, hb⟩ := List.exists_cons_of_ne_nil (splitNl_ne_nil rest)
    rw [hb] at ih
    by_cases hc : c = '\n'
    · subst hc
      unfold splitNl
      rw [if_pos rfl, hb]
      have : joinNl ([] :: b :: bs) = '\n' :: joinNl (b :: bs) := by
        simp [joinNl]
      rw [this, ih]
    · unfold splitNl
      rw [if_neg hc, hb]
      have : joinNl ((c :: b) :: bs) = c :: joinNl (b :: bs) := by
        have h2 := joinNl_cons [c] b bs
        simpa using h2
      rw [this, ih]

lemma mem_splitNl_no_nl : ∀ {l b : List Char}, b ∈ splitNl l → '\n' ∉ b := by
  intro l
  induction l with
  | nil =>
    intro b hb
    simp [splitNl] at hb
    simp [hb]
  | cons c rest ih =>
    intro b hb
    obtain ⟨b0, bs0, h0⟩ := List.exists_cons_of_ne_nil (splitNl_ne_nil rest)
    by_cases hc : c = '\n'
    · subst hc
      unfold splitNl at hb
      rw [if_pos rfl] at hb
      rcases List.mem_cons.mp hb with rfl | h
      · simp
      · exact ih h
    · unfold splitNl at hb
      rw [if_neg hc, h0] at hb
      rcases List.mem_cons.mp hb with rfl | h
      · intro hmem
        rcases List.mem_cons.mp hmem with h' | h'
        · exact hc h'.symm
        · exact ih (h0 ▸ List.mem_cons_self b0 bs0) h'
      · exact ih (h0 ▸ List.mem_cons_of_mem _ h)

lemma nonBlank_witness {l : List Char} (h : nonBlank l = true) :
    ∃ c ∈ l, isPyWS c = false := by
  simpa [nonBlank] using h

/-- Stripping a single trailing newline from a list with non-whitespace
first and last characters. -/
lemma pyStrip_wrap {B : List Char}
    (h1 : ∀ c, B.head? = some c → isPyWS c = false)
    (h2 : ∀ c, B.getLast? = some c → isPyWS c = false) :
    pyStrip (B ++ ['\n']) = B := by
  cases B with
  | nil => decide
  | cons c B' =>
    unfold pyStrip
    have hc : isPyWS c = false := h1 c rfl
    rw [List.cons_append, List.dropWhile_cons, hc]
    simp only [Bool.false_eq_true, if_false]
    have hrev : (c :: (B' ++ ['\n'])).reverse = '\n' :: (c :: B').reverse := by
      rw [← List.cons_append, List.reverse_append]
      rfl
    rw [hrev, List.dropWhile_cons]
    simp only [show isPyWS '\n' = true from rfl, if_true]
    rw [dropWhile_eq_self_of_head
      (fun d hd => h2 d (by rwa [List.head?_reverse] at hd)),
      List.reverse_reverse]

/-! ### The blank-line splitter -/

lemma sepTail_length {l r : List Char} (h : sepTail l = some r) :
    r.length < l.length := by
  simp only [sepTail] at h
  split at h
  · rename_i hh
    obtain ⟨hr⟩ := h
    have hlen : (l.dropWhile (fun c => isPyWS c && c != '\n')).length ≤ l.length :=
      (List.dropWhile_suffix _).length_le
    have hne : (l.dropWhile (fun c => isPyWS c && c != '\n')).length ≠ 0 := by
      intro h0
      rw [List.length_eq_zero.mp h0] at hh
      simp at hh
    rw [List.length_tail]
    omega
  · exact absurd h (by simp)

lemma sepManyAux_length (f : Nat) (l : List Char) :
    (sepManyAux f l).length ≤ l.length := by
  induction f generalizing l with
  | zero => simp [sepManyAux]
  | succ f ih =>
    unfold sepManyAux
    cases h : sepTail l with
    | none => simp
    | some r =>
      show (sepManyAux f r).length ≤ l.length
      have h1 := sepTail_length h
      have h2 := ih r
      omega

lemma sepManyAux_of_none {f : Nat} {l : List Char} (h : sepTail l = none) :
    sepManyAux f l = l := by
  cases f <;> simp [sepManyAux, h]

lemma sepMatch_length {l r : List Char} (h : sepMatch l = some r) :
    r.length + 2 ≤ l.length := by
  unfold sepMatch at h
  split at h
  · rename_i hh
    cases hl : l with
    | nil => rw [hl] at hh; simp at hh
    | cons x xs =>
      rw [hl] at h hh
      simp only [List.head?_cons, Option.some.injEq] at hh
      simp only [List.tail_cons] at h
      cases ht : sepTail xs with
      | none => rw [ht] at h; exact absurd h (by simp)
      | some r0 =>
        rw [ht] at h
        obtain ⟨hr⟩ := h
        have h1 := sepManyAux_length r0.length r0
        have h2 := sepTail_length ht
        simp only [List.length_cons]
        omega
  · exact absurd h (by simp)

lemma sepMatch_cons_ne {c : Char} {rest : List Char} (h : c ≠ '\n') :
    sepMatch (c :: rest) = none := by
  unfold sepMatch
  rw [if_neg]
  simp only [List.head?_cons, Option.some.injEq]
  exact h

lemma sepMatch_double_nl {rest : List Char} (h : sepTail rest = none) :
    sepMatch ('\n' :: '\n' :: rest) = some rest := by
  have h1 : sepTail ('\n' :: rest) = some rest := by
    simp only [sepTail]
    have hdw : ('\n' :: rest).dropWhile (fun c => isPyWS c && c != '\n') =
        '\n' :: rest := by
      rw [List.dropWhile_cons]
      simp
    rw [hdw]
    simp
  unfold sepMatch
  rw [if_pos (show ('\n' :: '\n' :: rest).head? = some '\n' from rfl)]
  simp only [List.tail_cons, h1, sepManyAux_of_none h]

lemma sepTail_append_none {l : List Char} (t : List Char) (hnl : '\n' ∉ l)
    (hnb : ∃ c ∈ l, isPyWS c = false) : sepTail (l ++ t) = none := by
  induction l with
  | nil => simp at hnb
  | cons c l' ih =>
    have hc : c ≠ '\n' := fun hc => hnl (hc ▸ List.mem_cons_self c l')
    by_cases hws : isPyWS c = true
    · have hpred : (isPyWS c && c != '\n') = true := by
        simp [hws, bne_iff_ne, hc]
      have hdw : ((c :: l') ++ t).dropWhile (fun c => isPyWS c && c != '\n') =
          (l' ++ t).dropWhile (fun c => isPyWS c && c != '\n') := by
        rw [List.cons_append, List.dropWhile_cons, hpred]
        simp
      unfold sepTail
      rw [hdw]
      have hwit : ∃ d ∈ l', isPyWS d = false := by
        obtain ⟨d, hd, hdw'⟩ := hnb
        rcases List.mem_cons.mp hd with rfl | hd'
        · rw [hws] at hdw'; exact absurd hdw' (by simp)
        · exact ⟨d, hd', hdw'⟩
      have := ih (fun hm => hnl (List.mem_cons_of_mem _ hm)) hwit
      unfold sepTail at this
      exact this
    · have hpred : (isPyWS c && c != '\n') = false := by
        simp only [Bool.and_eq_false_iff]
        left
        revert hws
        cases isPyWS c <;> simp
      unfold sepTail
      rw [List.cons_append, List.dropWhile_cons, hpred]
      simp only [Bool.false_eq_true, if_false, List.head?_cons]
      rw [if_neg]
      simp only [Option.some.injEq]
      exact hc

lemma splitBlocksAux_ne_nil (f : Nat) (l : List Char) : splitBlocksAux f l ≠ [] := by
  induction f generalizing l with
  | zero => simp [splitBlocksAux]
  | succ f ih =>
    cases l with
    | nil => simp [splitBlocksAux]
    | cons c rest =>
      simp only [splitBlocksAux]
      cases hsep : sepMatch (c :: rest) with
      | some r => simp
      | none =>
        cases h2 : splitBlocksAux f rest with
        | nil => simp
        | cons b bs => simp

lemma splitBlocksAux_cons (f : Nat) (c : Char) (rest : List Char) :
    splitBlocksAux (f + 1) (c :: rest) =
      match sepMatch (c :: rest) with
      | some r => [] :: splitBlocksAux f r
      | none =>
        match splitBlocksAux f rest with
        | [] => [[c]]
        | b :: bs => (c :: b) :: bs := rfl

lemma splitBlocksAux_fuel : ∀ {f1 f2 : Nat} {l : List Char},
    l.length < f1 → l.length < f2 → splitBlocksAux f1 l = splitBlocksAux f2 l := by
  intro f1
  induction f1 with
  | zero => intro f2 l h1; omega
  | succ f1 ih =>
    intro f2 l h1 h2
    cases f2 with
    | zero => omega
    | succ f2 =>
      cases l with
      | nil => rfl
      | cons c rest =>
        rw [splitBlocksAux_cons, splitBlocksAux_cons]
        simp only [List.length_cons] at h1 h2
        cases hsep : sepMatch (c :: rest) with
        | some r =>
          have hr := sepMatch_length hsep
          simp only [List.length_cons] at hr
          show [] :: splitBlocksAux f1 r = [] :: splitBlocksAux f2 r
          rw [ih (show r.length < f1 by omega) (show r.length < f2 by omega)]
        | none =>
          show (match splitBlocksAux f1 rest with
              | [] => [[c]]
              | b :: bs => (c :: b) :: bs) =
            (match splitBlocksAux f2 rest with
              | [] => [[c]]
              | b :: bs => (c :: b) :: bs)
          rw [ih (show rest.length < f1 by omega) (show rest.length < f2 by omega)]

lemma splitBlocks_cons_sep {c : Char} {rest r : List Char}
    (h : sepMatch (c :: rest) = some r) :
    splitBlocks (c :: rest) = [] :: splitBlocks r := by
  have hr := sepMatch_length h
  simp only [List.length_cons] at hr
  unfold splitBlocks
  rw [List.length_cons, splitBlocksAux_cons, h]
  show [] :: splitBlocksAux (rest.length + 1) r = [] :: splitBlocksAux (r.length + 1) r
  rw [splitBlocksAux_fuel (show r.length < rest.length + 1 by omega)
    (show r.length < r.length + 1 by omega)]

lemma splitBlocks_cons_nosep {c : Char} {rest b : List Char} {bs : List (List Char)}
    (h : sepMatch (c :: rest) = none) (hr : splitBlocks rest = b :: bs) :
    splitBlocks (c :: rest) = (c :: b) :: bs := by
  unfold splitBlocks at hr ⊢
  rw [List.length_cons, splitBlocksAux_cons, h]
  show (match splitBlocksAux (rest.length + 1) rest with
    | [] => [[c]]
    | b :: bs => (c :: b) :: bs) = (c :: b) :: bs
  rw [hr]

lemma splitBlocks_line {line : List Char} (hnl : '\n' ∉ line) {tail b : List Char}
    {bs : List (List Char)} (ht : splitBlocks tail = b :: bs) :
    splitBlocks (line ++ tail) = (line ++ b) :: bs := by
  induction line with
  | nil => simpa using ht
  | cons c line' ih =>
    have hc : c ≠ '\n' := fun hc => hnl (hc ▸ List.mem_cons_self c line')
    have hl' : '\n' ∉ line' := fun hm => hnl (List.mem_cons_of_mem _ hm)
    rw [List.cons_append]
    rw [splitBlocks_cons_nosep (sepMatch_cons_ne hc) (ih hl')]
    rfl

/-- Every nonempty-lined block decomposes as a `'\n'`-free non-blank first
line followed by a remainder. -/
lemma exists_firstLine {b : List Char}
    (hb : ∀ line ∈ splitNl b, nonBlank line = true) :
    ∃ fl t, b = fl ++ t ∧ '\n' ∉ fl ∧ nonBlank fl = true := by
  obtain ⟨fl, rls, hfl⟩ := List.exists_cons_of_ne_nil (splitNl_ne_nil b)
  have hjoin : joinNl (fl :: rls) = b := hfl ▸ joinNl_splitNl b
  have hmem : fl ∈ splitNl b := hfl ▸ List.mem_cons_self fl rls
  have hnl : '\n' ∉ fl := mem_splitNl_no_nl hmem
  have hnb : nonBlank fl = true := hb fl hmem
  cases rls with
  | nil =>
    exact ⟨fl, [], by simpa [joinNl] using hjoin.symm, hnl, hnb⟩
  | cons l2 ls =>
    refine ⟨fl, '\n' :: joinNl (l2 :: ls), ?_, hnl, hnb⟩
    rw [← hjoin]
    simp [joinNl]

/-- No blank-line separator can fire at the start of a block followed by
anything. -/
lemma sepTail_block {b : List Char}
    (hb : ∀ line ∈ splitNl b, nonBlank line = true) (t : List Char) :
    sepTail (b ++ t) = none := by
  obtain ⟨fl, t2, rfl, hnl, hnb⟩ := exists_firstLine hb
  rw [List.append_assoc]
  exact sepTail_append_none _ hnl (nonBlank_witness hnb)

lemma sep2Join_cons_decomp (b : List Char) (bs : List (List Char)) :
    ∃ t, sep2Join (b :: bs) = b ++ t := by
  cases bs with
  | nil => exact ⟨[], by simp [sep2Join]⟩
  | cons b2 bs' => exact ⟨'\n' :: '\n' :: sep2Join (b2 :: bs'), rfl⟩

/-- Scanning a block (given as its nonblank lines) glued before `tail`. -/
lemma splitBlocks_lines : ∀ (lines : List (List Char)),
    (∀ l ∈ lines, '\n' ∉ l ∧ nonBlank l = true) →
    ∀ {tail b : List Char} {bs : List (List Char)},
    splitBlocks tail = b :: bs →
    splitBlocks (joinNl lines ++ tail) = (joinNl lines ++ b) :: bs := by
  intro lines
  induction lines with
  | nil =>
    intro _ tail b bs ht
    simpa [joinNl] using ht
  | cons l ls ih =>
    intro h tail b bs ht
    cases ls with
    | nil =>
      have hl := h l (by simp)
      simpa [joinNl] using splitBlocks_line hl.1 ht
    | cons l2 ls' =>
      have hl := h l (by simp)
      have hJ : joinNl (l :: l2 :: ls') = l ++ '\n' :: joinNl (l2 :: ls') := by
        simp [joinNl]
      have hl2 := h l2 (by simp)
      have hsub : splitBlocks (joinNl (l2 :: ls') ++ tail) =
          (joinNl (l2 :: ls') ++ b) :: bs :=
        ih (fun x hx => h x (List.mem_cons_of_mem _ hx)) ht
      have hfirst : sepTail (joinNl (l2 :: ls') ++ tail) = none := by
        have hJ2 : ∃ t2, joinNl (l2 :: ls') = l2 ++ t2 := by
          cases ls' with
          | nil => exact ⟨[], by simp [joinNl]⟩
          | cons l3 ls'' => exact ⟨'\n' :: joinNl (l3 :: ls''), rfl⟩
        obtain ⟨t2, ht2⟩ := hJ2
        rw [ht2, List.append_assoc]
        exact sepTail_append_none _ hl2.1 (nonBlank_witness hl2.2)
      have hmid : splitBlocks ('\n' :: (joinNl (l2 :: ls') ++ tail)) =
          ('\n' :: (joinNl (l2 :: ls') ++ b)) :: bs := by
        apply splitBlocks_cons_nosep _ hsub
        unfold sepMatch
        rw [if_pos
          (show ('\n' :: (joinNl (l2 :: ls') ++ tail)).head? = some '\n' from rfl)]
        simp only [List.tail_cons, hfirst]
      rw [hJ, List.append_assoc, List.cons_append]
      rw [splitBlocks_line hl.1 hmid]
      simp

/-- Splitting a canonical document (blocks with nonblank lines joined by
single blank lines) recovers exactly the blocks. -/
lemma splitBlocks_doc : ∀ (blocks : List (List Char)),
    (∀ b ∈ blocks, ∀ line ∈ splitNl b, nonBlank line = true) →
    blocks ≠ [] → splitBlocks (sep2Join blocks) = blocks := by
  intro blocks
  induction blocks with
  | nil => intro _ h; exact absurd rfl h
  | cons b bs ih =>
    intro h _
    have hb := h b (by simp)
    have hlines : ∀ l ∈ splitNl b, '\n' ∉ l ∧ nonBlank l = true :=
      fun l hl => ⟨mem_splitNl_no_nl hl, hb l hl⟩
    cases bs with
    | nil =>
      have := splitBlocks_lines (splitNl b) hlines
        (show splitBlocks [] = [] :: [] from rfl)
      simpa [joinNl_splitNl, sep2Join] using this
    | cons b2 bs' =>
      have hb2 := h b2 (by simp)
      have hS : sepTail (sep2Join (b2 :: bs')) = none := by
        obtain ⟨t, ht⟩ := sep2Join_cons_decomp b2 bs'
        rw [ht]
        exact sepTail_block hb2 t
      have htail : splitBlocks ('\n' :: '\n' :: sep2Join (b2 :: bs')) =
          [] :: (b2 :: bs') := by
        rw [splitBlocks_cons_sep (sepMatch_double_nl hS)]
        rw [ih (fun x hx => h x (List.mem_cons_of_mem _ hx)) (by simp)]
      have := splitBlocks_lines (splitNl b) hlines htail
      rw [joinNl_splitNl] at this
      simpa [sep2Join] using this

/-! ### Timestamp lines and per-block round trip -/

lemma validTimeL_elim {l : List Char} (h : validTimeL l = true) :
    ∃ a b c d e f g i j,
      l = [a, b, ':', c, d, ':', e, f, ',', g, i, j] ∧
      a.isDigit = true ∧ b.isDigit = true ∧ c.isDigit = true ∧
      d.isDigit = true ∧ e.isDigit = true ∧ f.isDigit = true ∧
      g.isDigit = true ∧ i.isDigit = true ∧ j.isDigit = true := by
  unfold validTimeL at h
  split at h
  · rename_i a b c1 c d c2 e f cm g i j
    simp only [Bool.and_eq_true, beq_iff_eq] at h
    obtain ⟨⟨⟨⟨⟨⟨⟨⟨⟨⟨⟨ha, hb⟩, hc1⟩, hc⟩, hd⟩, hc2⟩, he⟩, hf⟩, hcm⟩, hg⟩, hi⟩, hj⟩ := h
    subst hc1; subst hc2; subst hcm
    exact ⟨a, b, c, d, e, f, g, i, j, rfl, ha, hb, hc, hd, he, hf, hg, hi, hj⟩
  · exact absurd h (by simp)

lemma validTimeL_length {l : List Char} (h : validTimeL l = true) : l.length = 12 := by
  obtain ⟨a, b, c, d, e, f, g, i, j, rfl, -⟩ := validTimeL_elim h
  rfl

lemma validTimeL_no_nl {l : List Char} (h : validTimeL l = true) : '\n' ∉ l := by
  obtain ⟨a, b, c, d, e, f, g, i, j, rfl, ha, hb, hc, hd, he, hf, hg, hi, hj⟩ :=
    validTimeL_elim h
  intro hm
  simp only [List.mem_cons, List.not_mem_nil, or_false] at hm
  rcases hm with hx | hx | hx | hx | hx | hx | hx | hx | hx | hx | hx | hx
  · exact isDigit_ne_nl ha hx.symm
  · exact isDigit_ne_nl hb hx.symm
  · exact absurd hx (by decide)
  · exact isDigit_ne_nl hc hx.symm
  · exact isDigit_ne_nl hd hx.symm
  · exact absurd hx (by decide)
  · exact isDigit_ne_nl he hx.symm
  · exact isDigit_ne_nl hf hx.symm
  · exact absurd hx (by decide)
  · exact isDigit_ne_nl hg hx.symm
  · exact isDigit_ne_nl hi hx.symm
  · exact isDigit_ne_nl hj hx.symm

lemma validTimeL_head_digit {l : List Char} (h : validTimeL l = true) :
    ∃ c, l.head? = some c ∧ c.isDigit = true := by
  obtain ⟨a, b, c, d, e, f, g, i, j, rfl, ha, -⟩ := validTimeL_elim h
  exact ⟨a, rfl, ha⟩

/-- The timestamp line of an entry, `f"{start} --> {end}"`. -/
def tsLine (e : Subtitle) : List Char :=
  e.start_time.data ++ arrowSep ++ e.end_time.data

lemma tsLine_no_nl {e : Subtitle} (h1 : validTimeL e.start_time.data = true)
    (h2 : validTimeL e.end_time.data = true) : '\n' ∉ tsLine e := by
  intro hm
  unfold tsLine at hm
  rcases List.mem_append.mp hm with hx | hx
  · rcases List.mem_append.mp hx with hy | hy
    · exact validTimeL_no_nl h1 hy
    · exact absurd hy (by decide)
  · exact validTimeL_no_nl h2 hx

lemma tsLine_nonBlank {e : Subtitle} (h1 : validTimeL e.start_time.data = true) :
    nonBlank (tsLine e) = true := by
  obtain ⟨c, hc, hcd⟩ := validTimeL_head_digit h1
  obtain ⟨x, xs, hx⟩ := List.exists_cons_of_ne_nil
    (show e.start_time.data ≠ [] by
      intro h0
      rw [h0] at h1
      exact absurd h1 (by decide))
  rw [hx] at hc
  simp only [List.head?_cons, Option.some.injEq] at hc
  subst hc
  unfold tsLine nonBlank
  rw [hx]
  simp [isDigit_not_ws hcd]

lemma tsMatch_exact {st et : List Char} (h1 : validTimeL st = true)
    (h2 : validTimeL et = true) :
    tsMatch (st ++ arrowSep ++ et) = some (st, et) := by
  have hl1 : st.length = 12 := validTimeL_length h1
  have hl2 : et.length = 12 := validTimeL_length h2
  simp only [tsMatch]
  rw [List.append_assoc, List.take_left' hl1, if_pos h1, List.drop_left' hl1,
    List.take_left' (show arrowSep.length = 5 from rfl), if_pos rfl,
    List.drop_left' (show arrowSep.length = 5 from rfl),
    List.take_of_length_le (by omega), if_pos h2]

lemma entryBlock_decomp (e : Subtitle) :
    entryBlock e = intRepr e.number ++ '\n' :: (tsLine e ++ '\n' :: e.text.data) := by
  unfold entryBlock tsLine
  simp [List.append_assoc]

lemma splitNl_entryBlock {e : Subtitle} (h1 : validTimeL e.start_time.data = true)
    (h2 : validTimeL e.end_time.data = true) :
    splitNl (entryBlock e) = intRepr e.number :: tsLine e :: splitNl e.text.data := by
  rw [entryBlock_decomp, splitNl_append intRepr_no_nl,
    splitNl_append (tsLine_no_nl h1 h2)]

lemma entryWF_elim {e : Subtitle} (h : entryWF e = true) :
    validTimeL e.start_time.data = true ∧ validTimeL e.end_time.data = true ∧
      ∀ line ∈ splitNl e.text.data, nonBlank line = true := by
  unfold entryWF at h
  simp only [Bool.and_eq_true, List.all_eq_true] at h
  exact ⟨h.1.1, h.1.2, h.2⟩

lemma text_ne_nil {t : List Char}
    (h : ∀ line ∈ splitNl t, nonBlank line = true) : t ≠ [] := by
  intro h0
  subst h0
  have := h [] (by simp [splitNl])
  simp [nonBlank] at this

lemma lastCharOk_elim {l : List Char} (h : lastCharOk l = true) :
    ∀ c, l.getLast? = some c → isPyWS c = false := by
  intro c hc
  unfold lastCharOk at h
  rw [hc] at h
  simpa using h

lemma getLast?_append_right {l t : List Char} (ht : t ≠ []) :
    (l ++ t).getLast? = t.getLast? := by
  rw [List.getLast?_append]
  cases hl : t.getLast? with
  | none =>
    exact absurd (List.getLast?_eq_none_iff.mp hl) ht
  | some c => rfl

lemma entryBlock_ne_nil (e : Subtitle) : entryBlock e ≠ [] := by
  rw [entryBlock_decomp]
  obtain ⟨x, xs, hx⟩ := List.exists_cons_of_ne_nil (intRepr_ne_nil e.number)
  rw [hx]
  simp

lemma entryBlock_head (e : Subtitle) :
    ∀ c, (entryBlock e).head? = some c → isPyWS c = false := by
  intro c hc
  rw [entryBlock_decomp] at hc
  obtain ⟨x, xs, hx⟩ := List.exists_cons_of_ne_nil (intRepr_ne_nil e.number)
  rw [hx, List.cons_append, List.head?_cons, Option.some.injEq] at hc
  subst hc
  exact intRepr_not_ws _ (hx ▸ List.mem_cons_self x xs)

lemma entryBlock_getLast {e : Subtitle} (ht : e.text.data ≠ []) :
    (entryBlock e).getLast? = e.text.data.getLast? := by
  rw [entryBlock_decomp]
  rw [getLast?_append_right (by simp)]
  rw [show ('\n' :: (tsLine e ++ '\n' :: e.text.data)) =
    ('\n' :: tsLine e ++ ['\n']) ++ e.text.data by simp]
  exact getLast?_append_right ht

lemma pyStrip_entryBlock {e : Subtitle} (hwf : entryWF e = true)
    (hlast : lastCharOk e.text.data = true) :
    pyStrip (entryBlock e) = entryBlock e := by
  obtain ⟨h1, h2, h3⟩ := entryWF_elim hwf
  refine pyStrip_eq_self (entryBlock_head e) ?_
  intro c hc
  rw [entryBlock_getLast (text_ne_nil h3)] at hc
  exact lastCharOk_elim hlast c hc

lemma parseBlock_entryBlock {e : Subtitle} (h : entryCanonical e = true) :
    parseBlock (entryBlock e) = some e := by
  obtain ⟨hwf, hlast⟩ : entryWF e = true ∧ lastCharOk e.text.data = true := by
    have h' := h
    unfold entryCanonical at h'
    simpa [Bool.and_eq_true] using h'
  obtain ⟨h1, h2, h3⟩ := entryWF_elim hwf
  simp only [parseBlock]
  rw [pyStrip_entryBlock hwf hlast]
  rw [if_neg (entryBlock_ne_nil e)]
  rw [splitNl_entryBlock h1 h2]
  have hlen : ¬ (intRepr e.number :: tsLine e :: splitNl e.text.data).length < 3 := by
    have := splitNl_ne_nil e.text.data
    have hpos : 0 < (splitNl e.text.data).length := List.length_pos.mpr this
    simp only [List.length_cons]
    omega
  rw [if_neg hlen]
  show (match pyInt? (pyStrip (intRepr e.number)) with
    | none => none
    | some n =>
      match tsMatch (tsLine e) with
      | none => none
      | some (t1, t2) =>
        some ⟨n, String.mk t1, String.mk t2,
          String.mk (joinNl (splitNl e.text.data))⟩) = some e
  rw [pyStrip_intRepr, pyInt_intRepr]
  show (match tsMatch (tsLine e) with
    | none => none
    | some (t1, t2) =>
      some ⟨e.number, String.mk t1, String.mk t2,
        String.mk (joinNl (splitNl e.text.data))⟩) = some e
  rw [show tsLine e = e.start_time.data ++ arrowSep ++ e.end_time.data from rfl,
    tsMatch_exact h1 h2]
  show some (⟨e.number, String.mk e.start_time.data, String.mk e.end_time.data,
    String.mk (joinNl (splitNl e.text.data))⟩ : Subtitle) = some e
  rw [joinNl_splitNl]

/-! ### Serialization shape and the parse/format round trip -/

lemma joinNl_append {xs ys : List (List Char)} (hx : xs ≠ []) (hy : ys ≠ []) :
    joinNl (xs ++ ys) = joinNl xs ++ '\n' :: joinNl ys := by
  induction xs with
  | nil => exact absurd rfl hx
  | cons x xs' ih =>
    cases xs' with
    | nil =>
      obtain ⟨y, ys', rfl⟩ := List.exists_cons_of_ne_nil hy
      simp [joinNl]
    | cons x2 xs'' =>
      have hih := ih (by simp)
      rw [List.cons_append]
      have h1 : joinNl (x :: ((x2 :: xs'') ++ ys)) =
          x ++ '\n' :: joinNl ((x2 :: xs'') ++ ys) := by
        rw [List.cons_append]
        simp [joinNl]
      rw [h1, hih]
      simp [joinNl]

lemma joinNl_entryLines_one (e : Subtitle) :
    joinNl (entryLines e) = entryBlock e ++ ['\n'] := by
  show joinNl [intRepr e.number,
    e.start_time.data ++ arrowSep ++ e.end_time.data, e.text.data, []] = _
  simp [joinNl, entryBlock, List.append_assoc]

lemma format_data : ∀ (es : List Subtitle), es ≠ [] →
    (format_srt es).data = sep2Join (es.map entryBlock) ++ ['\n'] := by
  intro es
  induction es with
  | nil => intro h; exact absurd rfl h
  | cons e es' ih =>
    intro _
    show joinNl (((e :: es').map entryLines).flatten) = _
    cases es' with
    | nil =>
      rw [List.map_cons, List.map_nil, List.flatten_cons, List.flatten_nil,
        List.append_nil, joinNl_entryLines_one]
      simp [sep2Join]
    | cons e2 es'' =>
      have hxs : entryLines e ≠ [] := by simp [entryLines]
      have hys : (((e2 :: es'').map entryLines).flatten) ≠ [] := by
        simp [entryLines]
      rw [List.map_cons, List.flatten_cons, joinNl_append hxs hys,
        joinNl_entryLines_one]
      have hih : joinNl (((e2 :: es'').map entryLines).flatten) =
          sep2Join ((e2 :: es'').map entryBlock) ++ ['\n'] := ih (by simp)
      rw [hih]
      show _ = sep2Join (entryBlock e :: (e2 :: es'').map entryBlock) ++ ['\n']
      rw [show sep2Join (entryBlock e :: (e2 :: es'').map entryBlock) =
        entryBlock e ++ '\n' :: '\n' :: sep2Join ((e2 :: es'').map entryBlock) by
          rw [List.map_cons]; rfl]
      simp

lemma head?_append_left {l t : List Char} {c : Char} (h : l.head? = some c) :
    (l ++ t).head? = some c := by
  cases l with
  | nil => simp at h
  | cons x xs => simpa using h

lemma sep2Join_getLast : ∀ (blocks : List (List Char)) (b : List Char),
    (∀ x ∈ blocks, x ≠ []) → blocks.getLast? = some b →
    (sep2Join blocks).getLast? = b.getLast? := by
  intro blocks
  induction blocks with
  | nil => intro b _ h; simp at h
  | cons b1 bs ih =>
    intro b hne hlast
    cases bs with
    | nil =>
      simp only [List.getLast?_singleton, Option.some.injEq] at hlast
      subst hlast
      rfl
    | cons b2 bs' =>
      have hS : sep2Join (b2 :: bs') ≠ [] := by
        obtain ⟨t, ht⟩ := sep2Join_cons_decomp b2 bs'
        rw [ht]
        intro h0
        exact hne b2 (by simp) (List.append_eq_nil.mp h0).1
      have hlast' : (b2 :: bs').getLast? = some b := by
        rwa [List.getLast?_cons_cons] at hlast
      show (b1 ++ '\n' :: '\n' :: sep2Join (b2 :: bs')).getLast? = _
      rw [getLast?_append_right (by simp)]
      rw [show ('\n' :: '\n' :: sep2Join (b2 :: bs')) =
        ['\n', '\n'] ++ sep2Join (b2 :: bs') from rfl]
      rw [getLast?_append_right hS]
      exact ih b (fun x hx => hne x (List.mem_cons_of_mem _ hx)) hlast'

lemma intRepr_nonBlank (i : Int) : nonBlank (intRepr i) = true := by
  obtain ⟨x, xs, hx⟩ := List.exists_cons_of_ne_nil (intRepr_ne_nil i)
  unfold nonBlank
  rw [hx]
  have := intRepr_not_ws (i := i) x (hx ▸ List.mem_cons_self x xs)
  simp [this]

lemma entryBlock_lines_nonBlank {e : Subtitle} (h : entryCanonical e = true) :
    ∀ line ∈ splitNl (entryBlock e), nonBlank line = true := by
  obtain ⟨hwf, -⟩ : entryWF e = true ∧ lastCharOk e.text.data = true := by
    have h' := h
    unfold entryCanonical at h'
    simpa [Bool.and_eq_true] using h'
  obtain ⟨h1, h2, h3⟩ := entryWF_elim hwf
  intro line hline
  rw [splitNl_entryBlock h1 h2] at hline
  rcases List.mem_cons.mp hline with rfl | hline
  · exact intRepr_nonBlank e.number
  · rcases List.mem_cons.mp hline with rfl | hline
    · exact tsLine_nonBlank h1
    · exact h3 line hline

lemma filterMap_parseBlock : ∀ (es : List Subtitle),
    (∀ e ∈ es, entryCanonical e = true) →
    (es.map entryBlock).filterMap parseBlock = es := by
  intro es
  induction es with
  | nil => intro _; rfl
  | cons e es' ih =>
    intro h
    rw [List.map_cons, List.filterMap_cons,
      parseBlock_entryBlock (h e (by simp))]
    rw [ih (fun x hx => h x (List.mem_cons_of_mem _ hx))]

/-- Round trip: parsing the serialization of canonical entries recovers
them exactly. -/
lemma parse_format_srt {es : List Subtitle}
    (h : ∀ e ∈ es, entryCanonical e = true) :
    parse_srt (format_srt es) = es := by
  cases es with
  | nil => rfl
  | cons e es' =>
    have hlastblock : ∃ lb, ((e :: es').map entryBlock).getLast? = some lb ∧
        (∃ le ∈ e :: es', lb = entryBlock le) := by
      obtain ⟨lb, hlb⟩ := List.exists_mem_of_ne_nil
        (((e :: es').map entryBlock)) (by simp)
      obtain ⟨x, hx⟩ : ∃ x, ((e :: es').map entryBlock).getLast? = some x := by
        cases hxx : ((e :: es').map entryBlock).getLast? with
        | none =>
          exact absurd (List.getLast?_eq_none_iff.mp hxx) (by simp)
        | some x => exact ⟨x, rfl⟩
      have hmem : x ∈ (e :: es').map entryBlock :=
        List.mem_of_mem_getLast? hx
      obtain ⟨le, hle, hxe⟩ := List.mem_map.mp hmem
      exact ⟨x, hx, le, hle, hxe.symm⟩
    obtain ⟨lb, hlb, le, hle, rfl⟩ := hlastblock
    obtain ⟨hwfle, hlastle⟩ : entryWF le = true ∧ lastCharOk le.text.data = true := by
      have h' := h le hle
      unfold entryCanonical at h'
      simpa [Bool.and_eq_true] using h'
    have hDlast : (sep2Join ((e :: es').map entryBlock)).getLast? =
        (entryBlock le).getLast? := by
      apply sep2Join_getLast _ _ _ hlb
      intro x hx
      obtain ⟨y, _, hy⟩ := List.mem_map.mp hx
      rw [← hy]
      exact entryBlock_ne_nil y
    unfold parse_srt
    rw [format_data (e :: es') (by simp)]
    rw [pyStrip_wrap ?hhead ?hlast]
    case hhead =>
      intro c hc
      obtain ⟨t, ht⟩ := sep2Join_cons_decomp (entryBlock e) (es'.map entryBlock)
      rw [List.map_cons] at hc
      rw [ht] at hc
      obtain ⟨x, xs, hx⟩ := List.exists_cons_of_ne_nil (entryBlock_ne_nil e)
      rw [hx, List.cons_append, List.head?_cons, Option.some.injEq] at hc
      subst hc
      exact entryBlock_head e _ (by rw [hx]; rfl)
    case hlast =>
      intro c hc
      rw [hDlast] at hc
      rw [entryBlock_getLast (text_ne_nil (entryWF_elim hwfle).2.2)] at hc
      exact lastCharOk_elim hlastle c hc
    rw [splitBlocks_doc _ ?hcond (by simp)]
    case hcond =>
      intro b hb
      obtain ⟨y, hy, hyb⟩ := List.mem_map.mp hb
      rw [← hyb]
      exact entryBlock_lines_nonBlank (h y hy)
    exact filterMap_parseBlock _ h

/-! ### Claim C5 -/

/-- C5: For every raw document text `x` that is fully well-formed under the
grammar of §4.1 (blocks of an integer number line, a `HH:MM:SS,mmm -->
HH:MM:SS,mmm` timestamp line, and one or more text lines, separated by
blank lines), serializing the parse result reproduces `x` exactly:
`format_srt (parse_srt x) = x`. -/
theorem C5_roundtrip_wellformed (x : String) (h : wellFormedSrt x) :
    format_srt (parse_srt x) = x := by
  obtain ⟨es, hes, rfl⟩ := h
  rw [parse_format_srt hes]

theorem C5_roundtrip_witness :
    wellFormedSrt "1\n00:00:01,000 --> 00:00:02,000\nHello\n" ∧
      format_srt (parse_srt "1\n00:00:01,000 --> 00:00:02,000\nHello\n") =
        "1\n00:00:01,000 --> 00:00:02,000\nHello\n" := by
  have hwf : wellFormedSrt "1\n00:00:01,000 --> 00:00:02,000\nHello\n" :=
    ⟨[⟨1, "00:00:01,000", "00:00:02,000", "Hello"⟩], by decide, by decide⟩
  exact ⟨hwf, C5_roundtrip_wellformed _ hwf⟩

/-! ### Claim C10 -/

/-- C10 (counterexample): the entry `⟨1, ts, ts, "a "⟩` satisfies all the
claimed hypotheses — integer number, valid timestamps, non-empty text with
no blank or whitespace-only line — yet `parse_srt (format_srt [e]) ≠ [e]`:
the trailing space of the text is lost by `block.strip()` in the parser. -/
theorem C10_roundtrip_counterexample :
    entryWF ⟨1, "00:00:01,000", "00:00:02,000", "a "⟩ = true ∧
      parse_srt (format_srt [⟨1, "00:00:01,000", "00:00:02,000", "a "⟩]) ≠
        [⟨1, "00:00:01,000", "00:00:02,000", "a "⟩] := by
  constructor
  · decide
  · decide

/-- C10 (amended): for every entry sequence whose entries have valid
`HH:MM:SS,mmm` timestamps, texts that are non-empty with no empty or
whitespace-only line, **and that do not end in whitespace**, parsing the
serialized form reproduces the sequence exactly. -/
theorem C10_roundtrip_amended (es : List Subtitle)
    (h : ∀ e ∈ es, entryCanonical e = true) :
    parse_srt (format_srt es) = es :=
  parse_format_srt h

theorem C10_roundtrip_witness :
    (∀ e ∈ [(⟨2, "01:02:03,456", "01:02:04,000", "Hi\nthere"⟩ : Subtitle)],
      entryCanonical e = true) ∧
    parse_srt (format_srt [⟨2, "01:02:03,456", "01:02:04,000", "Hi\nthere"⟩]) =
      [⟨2, "01:02:03,456", "01:02:04,000", "Hi\nthere"⟩] :=
  ⟨by decide, C10_roundtrip_amended _ (by decide)⟩

/-! ### Reconciliation lemmas -/

lemma translateByMarkers_acc (batch : List Subtitle) :
    ∀ (pairs : List (Nat × List Char)) (acc : List Subtitle),
    pairs.foldl
      (fun acc p =>
        match batch.find? (fun s => decide (s.number = (p.1 : Int))) with
        | some s => acc ++ [{ s with text := String.mk (pyStrip p.2) }]
        | none => acc) acc =
    acc ++ pairs.filterMap (fun p =>
      (batch.find? (fun s => decide (s.number = (p.1 : Int)))).map
        (fun s => { s with text := String.mk (pyStrip p.2) })) := by
  intro pairs
  induction pairs with
  | nil => intro acc; simp
  | cons p ps ih =>
    intro acc
    simp only [List.foldl_cons, List.filterMap_cons]
    cases hf : batch.find? (fun s => decide (s.number = (p.1 : Int))) with
    | none => simp [ih]
    | some s => simp [ih]

/-- The marker loop in `filterMap` normal form. -/
lemma translateByMarkers_eq (batch : List Subtitle)
    (pairs : List (Nat × List Char)) :
    translateByMarkers batch pairs = pairs.filterMap (fun p =>
      (batch.find? (fun s => decide (s.number = (p.1 : Int)))).map
        (fun s => { s with text := String.mk (pyStrip p.2) })) := by
  unfold translateByMarkers
  simpa using translateByMarkers_acc batch pairs []

lemma insertByNum_perm (x : Subtitle) (l : List Subtitle) :
    (insertByNum x l).Perm (x :: l) := by
  induction l with
  | nil => rfl
  | cons y ys ih =>
    unfold insertByNum
    split
    · rfl
    · exact (ih.cons y).trans (List.Perm.swap x y ys)

lemma sortByNumber_perm (l : List Subtitle) : (sortByNumber l).Perm l := by
  induction l with
  | nil => rfl
  | cons x xs ih =>
    exact (insertByNum_perm x (sortByNumber xs)).trans (ih.cons x)

lemma mem_reconcileBatch {batch : List Subtitle} {resp : String} {x : Subtitle} :
    x ∈ reconcileBatch batch resp ↔
      x ∈ gapFill batch (translateByMarkers batch (scanMarkers resp.data)) :=
  (sortByNumber_perm _).mem_iff

/-- Which numbers appear among the marker-produced translations. -/
lemma number_mem_translateByMarkers {batch : List Subtitle}
    {pairs : List (Nat × List Char)} {n : Int} :
    n ∈ (translateByMarkers batch pairs).map Subtitle.number ↔
      (∃ p ∈ pairs, (p.1 : Int) = n) ∧ ∃ s ∈ batch, s.number = n := by
  rw [translateByMarkers_eq]
  constructor
  · intro h
    obtain ⟨x, hx, hxn⟩ := List.mem_map.mp h
    obtain ⟨p, hp, hfp⟩ := List.mem_filterMap.mp hx
    obtain ⟨s, hfind, hgs⟩ := Option.map_eq_some'.mp hfp
    have hsn : s.number = (p.1 : Int) := by
      have := List.find?_some hfind
      simpa using this
    have hxnum : x.number = s.number := by rw [← hgs]
    have hsmem : s ∈ batch := List.mem_of_find?_eq_some hfind
    subst hxn
    refine ⟨⟨p, hp, ?_⟩, s, hsmem, ?_⟩
    · rw [hxnum, hsn]
    · rw [← hxnum]
  · rintro ⟨⟨p, hp, hp1⟩, s, hs, hsn⟩
    have hfind : (batch.find? (fun s => decide (s.number = (p.1 : Int)))).isSome := by
      rw [List.find?_isSome]
      exact ⟨s, hs, by simp [hsn, hp1]⟩
    obtain ⟨s', hs'⟩ := Option.isSome_iff_exists.mp hfind
    have hs'n : s'.number = (p.1 : Int) := by
      have := List.find?_some hs'
      simpa using this
    apply List.mem_map.mpr
    refine ⟨{ s' with text := String.mk (pyStrip p.2) }, ?_, by simpa [hs'n] using hp1⟩
    exact List.mem_filterMap.mpr ⟨p, hp, by rw [hs']; rfl⟩

lemma reconcileBatch_numbers (batch : List Subtitle) (resp : String) (n : Int) :
    n ∈ (reconcileBatch batch resp).map Subtitle.number ↔
      n ∈ batch.map Subtitle.number := by
  constructor
  · intro h
    obtain ⟨x, hx, hxn⟩ := List.mem_map.mp h
    rw [mem_reconcileBatch] at hx
    unfold gapFill at hx
    rcases List.mem_append.mp hx with hx | hx
    · have hmem : x.number ∈
          (translateByMarkers batch (scanMarkers resp.data)).map Subtitle.number :=
        List.mem_map_of_mem _ hx
      rw [number_mem_translateByMarkers] at hmem
      obtain ⟨-, s, hs, hsn⟩ := hmem
      exact List.mem_map.mpr ⟨s, hs, by rw [hsn, hxn]⟩
    · exact List.mem_map.mpr ⟨x, (List.mem_filter.mp hx).1, hxn⟩
  · intro h
    obtain ⟨s, hs, hsn⟩ := List.mem_map.mp h
    by_cases htb : n ∈
        (translateByMarkers batch (scanMarkers resp.data)).map Subtitle.number
    · obtain ⟨x, hx, hxn⟩ := List.mem_map.mp htb
      refine List.mem_map.mpr ⟨x, ?_, hxn⟩
      rw [mem_reconcileBatch]
      unfold gapFill
      exact List.mem_append_left _ hx
    · refine List.mem_map.mpr ⟨s, ?_, hsn⟩
      rw [mem_reconcileBatch]
      unfold gapFill
      apply List.mem_append_right
      refine List.mem_filter.mpr ⟨hs, ?_⟩
      simp only [decide_eq_true_eq]
      rw [hsn]
      exact htb

/-! ### Counting through reconciliation -/

lemma length_filterMap_eq_countP {α β : Type} (f : α → Option β) (l : List α) :
    (l.filterMap f).length = l.countP (fun a => (f a).isSome) := by
  induction l with
  | nil => rfl
  | cons a l ih =>
    rw [List.filterMap_cons, List.countP_cons]
    cases hf : f a with
    | none => simp [ih, hf]
    | some b => simp [ih, hf]

lemma countP_or_disjoint {α : Type} (A B : α → Bool) (l : List α)
    (hd : ∀ a ∈ l, ¬(A a = true ∧ B a = true)) :
    l.countP (fun a => A a || B a) = l.countP A + l.countP B := by
  induction l with
  | nil => simp
  | cons a l ih =>
    have hda := hd a (List.mem_cons_self a l)
    have hrest := ih (fun x hx => hd x (List.mem_cons_of_mem _ hx))
    simp only [List.countP_cons, hrest]
    cases hA : A a <;> cases hB : B a <;> simp [hA, hB] at hda ⊢ <;> omega

lemma pairs_count_batch (pairs : List (Nat × List Char)) :
    ∀ (batch : List Subtitle), (batch.map Subtitle.number).Nodup →
    (∀ s ∈ batch, pairs.countP (fun p => decide ((p.1 : Int) = s.number)) ≤ 1) →
    pairs.countP
        (fun p => (batch.find? (fun s => decide (s.number = (p.1 : Int)))).isSome) =
      batch.countP
        (fun s => decide (0 < pairs.countP (fun p => decide ((p.1 : Int) = s.number)))) := by
  intro batch
  induction batch with
  | nil =>
    intro _ _
    simp [List.find?]
  | cons s0 bs ih =>
    intro hnodup hocc
    rw [List.map_cons] at hnodup
    obtain ⟨hs0, hnodup'⟩ := List.nodup_cons.mp hnodup
    have hpred : ∀ p ∈ pairs,
        (((s0 :: bs).find? (fun s => decide (s.number = (p.1 : Int)))).isSome = true) ↔
        ((decide ((p.1 : Int) = s0.number) ||
          (bs.find? (fun s => decide (s.number = (p.1 : Int)))).isSome) = true) := by
      intro p _
      rw [List.find?_cons]
      by_cases hd : s0.number = (p.1 : Int)
      · simp [hd]
      · have hd2 : ((p.1 : Int) = s0.number) ↔ False := by
          constructor
          · intro h'; exact hd h'.symm
          · intro h'; exact h'.elim
        simp [hd, hd2]
    rw [List.countP_congr hpred]
    rw [countP_or_disjoint _ _ _ ?hdisj]
    case hdisj =>
      intro p _ ⟨hA, hB⟩
      obtain ⟨s, hsmem, hsp⟩ := List.find?_isSome.mp hB
      simp only [decide_eq_true_eq] at hA hsp
      exact hs0 (List.mem_map.mpr ⟨s, hsmem, by rw [hsp, ← hA]⟩)
    have hocc0 : pairs.countP (fun p => decide ((p.1 : Int) = s0.number)) ≤ 1 :=
      hocc s0 (List.mem_cons_self s0 bs)
    rw [ih hnodup' (fun s hs => hocc s (List.mem_cons_of_mem _ hs))]
    rw [List.countP_cons]
    simp only [decide_eq_true_eq]
    by_cases hz : 0 < pairs.countP (fun p => decide ((p.1 : Int) = s0.number))
    · rw [if_pos hz]; omega
    · rw [if_neg hz]; omega

lemma countP_translateByMarkers (batch : List Subtitle)
    (pairs : List (Nat × List Char)) (n : Int) :
    (translateByMarkers batch pairs).countP (fun s => decide (s.number = n)) =
      if (batch.find? (fun s => decide (s.number = n))).isSome
      then pairs.countP (fun p => decide ((p.1 : Int) = n)) else 0 := by
  rw [translateByMarkers_eq]
  induction pairs with
  | nil => simp
  | cons p ps ih =>
    rw [List.filterMap_cons]
    cases hf : batch.find? (fun s => decide (s.number = (p.1 : Int))) with
    | none =>
      simp only [Option.map_none']
      rw [ih, List.countP_cons]
      by_cases hn : (p.1 : Int) = n
      · rw [← hn] at *
        rw [hf]
        simp
      · simp [hn]
    | some s =>
      have hsn : s.number = (p.1 : Int) := by
        have := List.find?_some hf
        simpa using this
      simp only [Option.map_some']
      rw [List.countP_cons, List.countP_cons, ih]
      by_cases hn : (p.1 : Int) = n
      · rw [← hn] at *
        rw [hf]
        simp [hsn]
      · have hxn : ¬ ({ s with text := String.mk (pyStrip p.2) }.number = n) := by
          simpa [hsn] using hn
        simp [hn, hxn]

/-- The by-number count through the whole worker reconciliation: every
occurrence of a batch number among the markers yields an output entry;
numbers with no marker occurrence fall back to their batch multiplicity. -/
lemma countP_reconcileBatch (batch : List Subtitle) (resp : String) (n : Int) :
    (reconcileBatch batch resp).countP (fun s => decide (s.number = n)) =
      if n ∈ batch.map Subtitle.number then
        (if (scanMarkers resp.data).countP (fun p => decide ((p.1 : Int) = n)) = 0
         then batch.countP (fun s => decide (s.number = n))
         else (scanMarkers resp.data).countP (fun p => decide ((p.1 : Int) = n)))
      else 0 := by
  unfold reconcileBatch
  rw [(sortByNumber_perm _).countP_eq]
  unfold gapFill
  rw [List.countP_append, List.countP_filter]
  rw [countP_translateByMarkers]
  by_cases hmem : n ∈ batch.map Subtitle.number
  · have hfind : (batch.find? (fun s => decide (s.number = n))).isSome = true := by
      rw [List.find?_isSome]
      obtain ⟨s, hs, hsn⟩ := List.mem_map.mp hmem
      exact ⟨s, hs, by simp [hsn]⟩
    rw [if_pos hfind, if_pos hmem]
    by_cases hocc :
        (scanMarkers resp.data).countP (fun p => decide ((p.1 : Int) = n)) = 0
    · have hnotb : n ∉
          (translateByMarkers batch (scanMarkers resp.data)).map Subtitle.number := by
        rw [number_mem_translateByMarkers]
        rintro ⟨⟨p, hp, hp1⟩, -⟩
        have : 0 < (scanMarkers resp.data).countP
            (fun p => decide ((p.1 : Int) = n)) :=
          List.countP_pos_iff.mpr ⟨p, hp, by simp [hp1]⟩
        omega
      rw [hocc, if_pos rfl]
      have hcongr : batch.countP
          (fun s => decide (s.number = n) &&
            decide (s.number ∉ (translateByMarkers batch
              (scanMarkers resp.data)).map Subtitle.number)) =
          batch.countP (fun s => decide (s.number = n)) := by
        apply List.countP_congr
        intro s _
        by_cases hsn : s.number = n
        · simp [hsn, hnotb]
        · simp [hsn]
      omega
    · have htb : n ∈
          (translateByMarkers batch (scanMarkers resp.data)).map Subtitle.number := by
        rw [number_mem_translateByMarkers]
        obtain ⟨p, hp, hp1⟩ := List.countP_pos_iff.mp (Nat.pos_of_ne_zero hocc)
        have hp1' : (p.1 : Int) = n := by simpa using hp1
        obtain ⟨s, hs, hsn⟩ := List.mem_map.mp hmem
        exact ⟨⟨p, hp, hp1'⟩, s, hs, hsn⟩
      have hzero : batch.countP
          (fun s => decide (s.number = n) &&
            decide (s.number ∉ (translateByMarkers batch
              (scanMarkers resp.data)).map Subtitle.number)) = 0 := by
        rw [List.countP_eq_zero]
        intro s _
        by_cases hsn : s.number = n
        · simp [hsn, htb]
        · simp [hsn]
      rw [if_neg hocc, hzero]
      omega
  · have hfind : ¬ ((batch.find? (fun s => decide (s.number = n))).isSome = true) := by
      rw [List.find?_isSome]
      rintro ⟨s, hs, hsn⟩
      simp only [decide_eq_true_eq] at hsn
      exact hmem (List.mem_map.mpr ⟨s, hs, hsn⟩)
    rw [if_neg hfind, if_neg hmem]
    have hzero : batch.countP
        (fun s => decide (s.number = n) &&
          decide (s.number ∉ (translateByMarkers batch
            (scanMarkers resp.data)).map Subtitle.number)) = 0 := by
      rw [List.countP_eq_zero]
      intro s hs
      by_cases hsn : s.number = n
      · exact absurd (List.mem_map.mpr ⟨s, hs, hsn⟩) hmem
      · simp [hsn]
    omega

/-- Output cardinality equals batch cardinality when batch numbers are
distinct and no batch number occurs twice among the markers. -/
lemma length_reconcileBatch_of_nodup (batch : List Subtitle) (resp : String)
    (hnodup : (batch.map Subtitle.number).Nodup)
    (hocc : ∀ s ∈ batch, (scanMarkers resp.data).countP
      (fun p => decide ((p.1 : Int) = s.number)) ≤ 1) :
    (reconcileBatch batch resp).length = batch.length := by
  unfold reconcileBatch
  rw [(sortByNumber_perm _).length_eq]
  unfold gapFill
  rw [List.length_append]
  have htb : (translateByMarkers batch (scanMarkers resp.data)).length =
      (scanMarkers resp.data).countP
        (fun p => (batch.find? (fun s => decide (s.number = (p.1 : Int)))).isSome) := by
    rw [translateByMarkers_eq, length_filterMap_eq_countP]
    apply List.countP_congr
    intro p _
    simp [Option.isSome_map']
  rw [htb]
  rw [pairs_count_batch _ batch hnodup hocc]
  have hfilter : (batch.filter (fun s => decide (s.number ∉
      (translateByMarkers batch (scanMarkers resp.data)).map Subtitle.number))).length =
      batch.countP (fun s => decide (s.number ∉
        (translateByMarkers batch (scanMarkers resp.data)).map Subtitle.number)) :=
    (List.countP_eq_length_filter _ _).symm
  rw [hfilter]
  have hsplit := List.length_eq_countP_add_countP
    (fun s => decide (s.number ∈
      (translateByMarkers batch (scanMarkers resp.data)).map Subtitle.number)) batch
  have hcongr1 : batch.countP (fun s => decide (s.number ∈
      (translateByMarkers batch (scanMarkers resp.data)).map Subtitle.number)) =
      batch.countP (fun s => decide (0 < (scanMarkers resp.data).countP
        (fun p => decide ((p.1 : Int) = s.number)))) := by
    apply List.countP_congr
    intro s hs
    simp only [decide_eq_true_eq]
    rw [number_mem_translateByMarkers]
    constructor
    · rintro ⟨⟨p, hp, hp1⟩, -⟩
      exact List.countP_pos_iff.mpr ⟨p, hp, by simp [hp1]⟩
    · intro hpos
      obtain ⟨p, hp, hp1⟩ := List.countP_pos_iff.mp hpos
      exact ⟨⟨p, hp, by simpa using hp1⟩, s, hs, rfl⟩
  have hcongr2 : batch.countP (fun s =>
      decide ¬((fun s => decide (s.number ∈
        (translateByMarkers batch (scanMarkers resp.data)).map Subtitle.number)) s
          = true)) =
      batch.countP (fun s => decide (s.number ∉
        (translateByMarkers batch (scanMarkers resp.data)).map Subtitle.number)) := by
    apply List.countP_congr
    intro s _
    simp
  rw [hcongr2] at hsplit
  rw [← hcongr1]
  omega

/-! ### Claim C1 -/

/-- C1 (counterexample): for the one-entry batch numbered 1 and the
response `"[1] x\n[1] y"` with a duplicated marker, the reconciliation of
`TranslationWorker._translate_subtitles` returns two entries, not
`len(batch) = 1`. -/
theorem C1_reconcile_counterexample :
    (reconcileBatch [⟨1, "00:00:00,000", "00:00:01,000", "a"⟩]
        "[1] x\n[1] y").length ≠
      ([⟨1, "00:00:00,000", "00:00:01,000", "a"⟩] : List Subtitle).length := by
  decide

/-- C1 (amended): for every batch and response, the set of entry numbers of
the reconciled output equals the batch's number set; and the output has
exactly `len(batch)` entries provided the batch's numbers are pairwise
distinct and no batch number occurs more than once among the response's
`[n]` markers (duplicate markers each produce an entry, so the count can
otherwise exceed the batch's). -/
theorem C1_reconcile_shape (batch : List Subtitle) (resp : String) :
    (∀ n : Int, n ∈ (reconcileBatch batch resp).map Subtitle.number ↔
        n ∈ batch.map Subtitle.number) ∧
    ((batch.map Subtitle.number).Nodup →
      (∀ s ∈ batch, (scanMarkers resp.data).countP
        (fun p => decide ((p.1 : Int) = s.number)) ≤ 1) →
      (reconcileBatch batch resp).length = batch.length) :=
  ⟨reconcileBatch_numbers batch resp,
   fun h1 h2 => length_reconcileBatch_of_nodup batch resp h1 h2⟩

theorem C1_reconcile_witness :
    (∀ n : Int, n ∈ (reconcileBatch
        [⟨1, "00:00:00,000", "00:00:01,000", "Hello"⟩,
         ⟨2, "00:00:01,000", "00:00:02,000", "World"⟩]
        "[1] Bonjour\n\n[2] Monde\n").map Subtitle.number ↔
      n ∈ ([⟨1, "00:00:00,000", "00:00:01,000", "Hello"⟩,
            ⟨2, "00:00:01,000", "00:00:02,000", "World"⟩] :
        List Subtitle).map Subtitle.number) ∧
    (reconcileBatch
        [⟨1, "00:00:00,000", "00:00:01,000", "Hello"⟩,
         ⟨2, "00:00:01,000", "00:00:02,000", "World"⟩]
        "[1] Bonjour\n\n[2] Monde\n").length =
      ([⟨1, "00:00:00,000", "00:00:01,000", "Hello"⟩,
        ⟨2, "00:00:01,000", "00:00:02,000", "World"⟩] : List Subtitle).length :=
  ⟨(C1_reconcile_shape _ _).1, (C1_reconcile_shape _ _).2 (by decide) (by decide)⟩

/-! ### Claim C2 -/

/-- C2: for every batch with pairwise-distinct entry numbers, if the
response contains a `[n]` marker for every entry number `n` of the batch,
then every output entry's text is the trimmed content extracted for a
marker with its number (the text running from that marker until the next
marker or the end); in particular no entry falls back to its original
text. -/
theorem C2_marker_extraction (batch : List Subtitle) (resp : String)
    (_hnodup : (batch.map Subtitle.number).Nodup)
    (hcover : ∀ e ∈ batch, ∃ p ∈ scanMarkers resp.data, (p.1 : Int) = e.number) :
    ∀ o ∈ reconcileBatch batch resp, ∃ p ∈ scanMarkers resp.data,
      (p.1 : Int) = o.number ∧ o.text = String.mk (pyStrip p.2) := by
  intro o ho
  rw [mem_reconcileBatch] at ho
  unfold gapFill at ho
  rcases List.mem_append.mp ho with ho | ho
  · rw [translateByMarkers_eq] at ho
    obtain ⟨p, hp, hfp⟩ := List.mem_filterMap.mp ho
    obtain ⟨s, hfind, hgs⟩ := Option.map_eq_some'.mp hfp
    have hsn : s.number = (p.1 : Int) := by
      simpa using List.find?_some hfind
    have hon : o.number = s.number := by rw [← hgs]
    refine ⟨p, hp, ?_, ?_⟩
    · rw [hon, hsn]
    · rw [← hgs]
  · exfalso
    have hmemf := List.mem_filter.mp ho
    obtain ⟨p, hp, hpn⟩ := hcover o hmemf.1
    have hin : o.number ∈
        (translateByMarkers batch (scanMarkers resp.data)).map Subtitle.number :=
      number_mem_translateByMarkers.mpr ⟨⟨p, hp, hpn⟩, o, hmemf.1, rfl⟩
    have h2 := hmemf.2
    simp only [decide_eq_true_eq] at h2
    exact h2 hin

theorem C2_marker_extraction_witness :
    ((([⟨1, "00:00:00,000", "00:00:01,000", "Hello"⟩,
        ⟨2, "00:00:01,000", "00:00:02,000", "World"⟩] :
          List Subtitle).map Subtitle.number).Nodup) ∧
    (∀ o ∈ reconcileBatch
        [⟨1, "00:00:00,000", "00:00:01,000", "Hello"⟩,
         ⟨2, "00:00:01,000", "00:00:02,000", "World"⟩]
        "[1] Bonjour et bienvenue\n\n[2] Monde\n",
      ∃ p ∈ scanMarkers ("[1] Bonjour et bienvenue\n\n[2] Monde\n" : String).data,
        (p.1 : Int) = o.number ∧ o.text = String.mk (pyStrip p.2)) :=
  ⟨by decide, C2_marker_extraction _ _ (by decide) (by decide)⟩

/-! ### Claim C3 -/

/-- C3 (counterexample): for the one-entry batch numbered 7 and the
response `"[7] x\n[7] y"`, the second occurrence of `[7]` also produces an
output entry (with text `"y"`): later duplicates are *not* ignored. -/
theorem C3_duplicate_counterexample :
    reconcileBatch [⟨7, "00:00:00,000", "00:00:01,000", "orig"⟩]
        "[7] x\n[7] y" =
      [⟨7, "00:00:00,000", "00:00:01,000", "x"⟩,
       ⟨7, "00:00:00,000", "00:00:01,000", "y"⟩] ∧
    (reconcileBatch [⟨7, "00:00:00,000", "00:00:01,000", "orig"⟩]
        "[7] x\n[7] y").length ≠ 1 := by
  constructor
  · decide
  · decide

/-- C3 (amended): during marker extraction every occurrence of `[n]` whose
number belongs to the batch produces its own translated entry — duplicates
are not dropped: whenever `n` is a batch number occurring at least once
among the markers, the output contains exactly as many entries numbered
`n` as there are marker occurrences of `n`. -/
theorem C3_duplicate_markers (batch : List Subtitle) (resp : String) (n : Int)
    (hn : n ∈ batch.map Subtitle.number)
    (hocc : 0 < (scanMarkers resp.data).countP (fun p => decide ((p.1 : Int) = n))) :
    (reconcileBatch batch resp).countP (fun s => decide (s.number = n)) =
      (scanMarkers resp.data).countP (fun p => decide ((p.1 : Int) = n)) := by
  rw [countP_reconcileBatch, if_pos hn, if_neg (by omega)]

theorem C3_duplicate_markers_witness :
    ((7 : Int) ∈ ([⟨7, "00:00:00,000", "00:00:01,000", "orig"⟩] :
        List Subtitle).map Subtitle.number) ∧
    (reconcileBatch [⟨7, "00:00:00,000", "00:00:01,000", "orig"⟩]
        "[7] x\n[7] y").countP (fun s => decide (s.number = 7)) =
      (scanMarkers ("[7] x\n[7] y" : String).data).countP
        (fun p => decide ((p.1 : Int) = 7)) :=
  ⟨by decide, C3_duplicate_markers _ _ 7 (by decide) (by decide)⟩

/-! ### Claim C9 -/

/-- C9 (counterexample): batch `[{1}, {1}, {2}]` (a duplicated number 1)
and response `"[1] x\n[2] a\n[2] b"` (exactly one `[1]` marker) satisfy the
claim's hypotheses, yet the reconciled output has exactly as many entries
as the batch, not strictly fewer — a duplicated `[2]` marker makes up for
the dropped duplicate of 1. -/
theorem C9_shared_number_counterexample :
    (([⟨1, "00:00:00,000", "00:00:01,000", "p"⟩,
       ⟨1, "00:00:01,000", "00:00:02,000", "q"⟩,
       ⟨2, "00:00:02,000", "00:00:03,000", "r"⟩] :
        List Subtitle).countP (fun s => decide (s.number = 1)) = 2) ∧
    ((scanMarkers ("[1] x\n[2] a\n[2] b" : String).data).countP
      (fun p => decide ((p.1 : Int) = 1)) = 1) ∧
    (reconcileBatch
        [⟨1, "00:00:00,000", "00:00:01,000", "p"⟩,
         ⟨1, "00:00:01,000", "00:00:02,000", "q"⟩,
         ⟨2, "00:00:02,000", "00:00:03,000", "r"⟩]
        "[1] x\n[2] a\n[2] b").length =
      ([⟨1, "00:00:00,000", "00:00:01,000", "p"⟩,
        ⟨1, "00:00:01,000", "00:00:02,000", "q"⟩,
        ⟨2, "00:00:02,000", "00:00:03,000", "r"⟩] : List Subtitle).length := by
  refine ⟨by decide, by decide, by decide⟩

/-- C9 (amended): if the batch contains at least two entries numbered `n`
and the response contains exactly one `[n]` marker, the output contains
exactly one entry numbered `n` — strictly fewer entries with that number
than the batch: the marker translates only the first such entry and
gap-filling skips the rest. -/
theorem C9_shared_number (batch : List Subtitle) (resp : String) (n : Int)
    (hdup : 2 ≤ batch.countP (fun s => decide (s.number = n)))
    (hone : (scanMarkers resp.data).countP (fun p => decide ((p.1 : Int) = n)) = 1) :
    (reconcileBatch batch resp).countP (fun s => decide (s.number = n)) = 1 ∧
    (reconcileBatch batch resp).countP (fun s => decide (s.number = n)) <
      batch.countP (fun s => decide (s.number = n)) := by
  have hn : n ∈ batch.map Subtitle.number := by
    obtain ⟨s, hs, hsn⟩ := List.countP_pos_iff.mp
      (show 0 < batch.countP (fun s => decide (s.number = n)) by omega)
    exact List.mem_map.mpr ⟨s, hs, by simpa using hsn⟩
  rw [countP_reconcileBatch, if_pos hn, if_neg (by omega), hone]
  exact ⟨rfl, by omega⟩

theorem C9_shared_number_witness :
    (2 ≤ ([⟨1, "00:00:00,000", "00:00:01,000", "p"⟩,
           ⟨1, "00:00:01,000", "00:00:02,000", "q"⟩] :
        List Subtitle).countP (fun s => decide (s.number = 1))) ∧
    (reconcileBatch
        [⟨1, "00:00:00,000", "00:00:01,000", "p"⟩,
         ⟨1, "00:00:01,000", "00:00:02,000", "q"⟩] "[1] z").countP
      (fun s => decide (s.number = 1)) = 1 :=
  ⟨by decide, (C9_shared_number _ _ 1 (by decide) (by decide)).1⟩

/-! ### Claim C7: the batch planner -/

lemma chunkAux_eq_nil_iff {α : Type} (f : Nat) (l : List α) (b2 : Nat)
    (hf : 0 < f) : chunkAux f l b2 = [] ↔ l = [] := by
  cases f with
  | zero => omega
  | succ f =>
    cases l with
    | nil => simp [chunkAux]
    | cons x xs => simp [chunkAux]

lemma chunkAux_spec {α : Type} {bs : Nat} (hbs : 1 ≤ bs) :
    ∀ (fuel : Nat) (l : List α), l.length < fuel →
      (chunkAux fuel l bs).flatten = l ∧
      (∀ b ∈ chunkAux fuel l bs, b ≠ [] ∧ b.length ≤ bs) ∧
      (∀ b ∈ (chunkAux fuel l bs).dropLast, b.length = bs) := by
  intro fuel
  induction fuel with
  | zero => intro l h; omega
  | succ f ih =>
    intro l h
    cases l with
    | nil => simp [chunkAux]
    | cons x xs =>
      have hlen : ((x :: xs).drop bs).length < f := by
        rw [List.length_drop]
        simp only [List.length_cons] at h ⊢
        omega
      obtain ⟨ihj, ihsz, ihlast⟩ := ih ((x :: xs).drop bs) hlen
      have hstep : chunkAux (f + 1) (x :: xs) bs =
          (x :: xs).take bs :: chunkAux f ((x :: xs).drop bs) bs := rfl
      refine ⟨?_, ?_, ?_⟩
      · rw [hstep, List.flatten_cons, ihj, List.take_append_drop]
      · intro b hb
        rw [hstep] at hb
        rcases List.mem_cons.mp hb with rfl | hb
        · constructor
          · cases hbs' : bs with
            | zero => omega
            | succ bs' => simp [List.take_cons]
          · exact List.length_take_le bs (x :: xs)
        · exact ihsz b hb
      · intro b hb
        rw [hstep] at hb
        cases hrest : chunkAux f ((x :: xs).drop bs) bs with
        | nil =>
          rw [hrest] at hb
          simp at hb
        | cons c cs =>
          rw [hrest] at hb
          rw [List.dropLast_cons₂] at hb
          rcases List.mem_cons.mp hb with rfl | hb
          · have hdrop : (x :: xs).drop bs ≠ [] := by
              intro h0
              have hnil := (chunkAux_eq_nil_iff f ((x :: xs).drop bs) bs
                (by omega)).mpr h0
              rw [hrest] at hnil
              simp at hnil
            have hgt : bs < (x :: xs).length := by
              by_contra hle
              exact hdrop (List.drop_eq_nil_of_le (by omega))
            rw [List.length_take]
            omega
          · exact ihlast b (hrest ▸ hb)

/-- C7 (counterexample): a negative batch size is *not* rejected —
`create_batches` silently returns an empty batch list (Python's
`range(0, len, negative)` is empty), losing all entries without error. -/
theorem C7_create_batches_counterexample :
    create_batches [⟨1, "00:00:00,000", "00:00:01,000", "a"⟩] (-1) = some [] := by
  decide

/-- C7 (amended): `batch_size = 0` is rejected (Python raises on a zero
`range` step); a negative `batch_size` silently returns an empty list of
batches; and for `batch_size ≥ 1` the concatenation of the batches equals
the input in order, every batch is nonempty of size at most `batch_size`,
and all batches except possibly the last have size exactly `batch_size`. -/
theorem C7_create_batches (subs : List Subtitle) (batchSize : Int) :
    (create_batches subs 0 = none) ∧
    (batchSize < 0 → create_batches subs batchSize = some []) ∧
    (1 ≤ batchSize →
      ∃ cs, create_batches subs batchSize = some cs ∧
        cs.flatten = subs ∧
        (∀ b ∈ cs, b ≠ [] ∧ b.length ≤ batchSize.toNat) ∧
        (∀ b ∈ cs.dropLast, b.length = batchSize.toNat)) := by
  refine ⟨rfl, ?_, ?_⟩
  · intro hneg
    unfold create_batches
    rw [if_neg (by omega), if_pos hneg]
  · intro hpos
    have hbs : 1 ≤ batchSize.toNat := by omega
    obtain ⟨hj, hsz, hlast⟩ :=
      chunkAux_spec hbs (subs.length + 1) subs (by omega)
    refine ⟨chunkList subs batchSize.toNat, ?_, hj, hsz, hlast⟩
    unfold create_batches
    rw [if_neg (by omega), if_neg (by omega)]

theorem C7_create_batches_witness :
    create_batches
      [⟨1, "00:00:00,000", "00:00:01,000", "a"⟩,
       ⟨2, "00:00:01,000", "00:00:02,000", "b"⟩,
       ⟨3, "00:00:02,000", "00:00:03,000", "c"⟩] 0 = none ∧
    ∃ cs, create_batches
        [⟨1, "00:00:00,000", "00:00:01,000", "a"⟩,
         ⟨2, "00:00:01,000", "00:00:02,000", "b"⟩,
         ⟨3, "00:00:02,000", "00:00:03,000", "c"⟩] 2 = some cs ∧
      cs.flatten =
        [⟨1, "00:00:00,000", "00:00:01,000", "a"⟩,
         ⟨2, "00:00:01,000", "00:00:02,000", "b"⟩,
         ⟨3, "00:00:02,000", "00:00:03,000", "c"⟩] ∧
      (∀ b ∈ cs, b ≠ [] ∧ b.length ≤ (2 : Int).toNat) ∧
      (∀ b ∈ cs.dropLast, b.length = (2 : Int).toNat) :=
  ⟨(C7_create_batches
      [⟨1, "00:00:00,000", "00:00:01,000", "a"⟩,
       ⟨2, "00:00:01,000", "00:00:02,000", "b"⟩,
       ⟨3, "00:00:02,000", "00:00:03,000", "c"⟩] 2).1,
   (C7_create_batches
      [⟨1, "00:00:00,000", "00:00:01,000", "a"⟩,
       ⟨2, "00:00:01,000", "00:00:02,000", "b"⟩,
       ⟨3, "00:00:02,000", "00:00:03,000", "c"⟩] 2).2.2 (by decide)⟩

/-! ### Claim C4: the client fallback path -/

lemma takeWhile_append_single_neg {p : Char → Bool} {a : Char}
    (ha : p a = false) (l : List Char) :
    (l ++ [a]).takeWhile p = l.takeWhile p := by
  induction l with
  | nil => simp [List.takeWhile_cons, ha]
  | cons c l' ih =>
    rw [List.cons_append, List.takeWhile_cons, List.takeWhile_cons]
    cases hc : p c <;> simp [hc, ih]

/-- Appending a newline cannot create a `[n]` marker at a position where
none matched. -/
lemma markerMatch_append_nl {c : Char} {rest : List Char}
    (h : markerMatch (c :: rest) = none) :
    markerMatch (c :: (rest ++ ['\n'])) = none := by
  simp only [markerMatch, List.head?_cons, List.tail_cons] at h ⊢
  by_cases hc : c = '['
  · rw [if_pos (by rw [hc])] at h ⊢
    rw [takeWhile_append_single_neg (by decide) rest]
    by_cases hds : rest.takeWhile Char.isDigit = []
    · rw [if_pos hds]
    · rw [if_neg hds] at h ⊢
      have hle : (rest.takeWhile Char.isDigit).length ≤ rest.length :=
        (List.takeWhile_prefix _).length_le
      rw [List.drop_append_of_le_length hle]
      cases hdrop : rest.drop (rest.takeWhile Char.isDigit).length with
      | nil =>
        rw [if_neg (show ¬ ((([] : List Char) ++ ['\n']).head? = some ']') by decide)]
      | cons e es =>
        by_cases he : (e :: es).head? = some ']'
        · rw [hdrop, if_pos he] at h
          exact absurd h (by simp)
        · rw [List.cons_append]
          rw [if_neg (show ¬ ((e :: (es ++ ['\n'])).head? = some ']') by
            simpa using he)]
  · rw [if_neg (show ¬ (some c = some '[') by simpa using hc)] at h ⊢

lemma scanMarkersAux_cons_eq (f : Nat) (c : Char) (rest : List Char) :
    scanMarkersAux (f + 1) (c :: rest) =
      (match markerMatch (c :: rest) with
      | some (n, r) => ([], (n, (scanMarkersAux f r).1) :: (scanMarkersAux f r).2)
      | none => (c :: (scanMarkersAux f rest).1, (scanMarkersAux f rest).2)) := rfl

lemma scanMarkers_cons_none {c : Char} {rest : List Char}
    (h : markerMatch (c :: rest) = none) :
    scanMarkers (c :: rest) = scanMarkers rest := by
  unfold scanMarkers
  rw [List.length_cons, scanMarkersAux_cons_eq, h]

lemma scanMarkers_cons_some {c : Char} {rest : List Char} {n : Nat} {r : List Char}
    (h : markerMatch (c :: rest) = some (n, r)) :
    scanMarkers (c :: rest) ≠ [] := by
  unfold scanMarkers
  rw [List.length_cons, scanMarkersAux_cons_eq, h]
  simp

/-- A response with no markers still has none after the `+ "\n"` the
`re.findall` variant appends. -/
lemma scanMarkers_nil_append {l : List Char} (h : scanMarkers l = []) :
    scanMarkers (l ++ ['\n']) = [] := by
  induction l with
  | nil => decide
  | cons c rest ih =>
    cases hm : markerMatch (c :: rest) with
    | some p =>
      exact absurd h (by cases p; exact scanMarkers_cons_some hm)
    | none =>
      rw [scanMarkers_cons_none hm] at h
      rw [List.cons_append, scanMarkers_cons_none (markerMatch_append_nl hm), ih h]

lemma findallPairs_eq_nil {l : List Char} (h : scanMarkers l = []) :
    findallPairs l = [] := by
  unfold findallPairs
  rw [scanMarkers_nil_append h]
  rfl

lemma sortByNumber_eq_of_sorted : ∀ {l : List Subtitle},
    List.Pairwise (fun a b => a.number ≤ b.number) l → sortByNumber l = l := by
  intro l
  induction l with
  | nil => intro _; rfl
  | cons x xs ih =>
    intro h
    obtain ⟨hhead, htail⟩ := List.pairwise_cons.mp h
    unfold sortByNumber
    rw [ih htail]
    cases xs with
    | nil => rfl
    | cons y ys =>
      unfold insertByNum
      rw [if_pos (hhead y (by simp))]

lemma pairwise_zip_left {α β : Type} {S : α → α → Prop} :
    ∀ {l : List α} {l' : List β}, l.Pairwise S →
      (l.zip l').Pairwise (fun p q => S p.1 q.1) := by
  intro l
  induction l with
  | nil => intro l' _; simp
  | cons a l ih =>
    intro l' h
    cases l' with
    | nil => simp
    | cons b l' =>
      rw [List.zip_cons_cons]
      obtain ⟨hhead, htail⟩ := List.pairwise_cons.mp h
      refine List.pairwise_cons.mpr ⟨?_, ih htail⟩
      intro p hp
      exact hhead p.1 (List.of_mem_zip hp).1

/-- C4 (counterexample): for the single-entry batch and response `" X"`
(no markers, one non-empty line), the output entry's text is the *trimmed*
line `"X"`, not the line `" X"` itself. -/
theorem C4_fallback_counterexample :
    scanMarkers (" X" : String).data = [] ∧
    nonEmptyLines " X" = [[' ', 'X']] ∧
    reconcileBatchClient [⟨1, "00:00:00,000", "00:00:01,000", "Hello"⟩] " X" =
      some [⟨1, "00:00:00,000", "00:00:01,000", "X"⟩] ∧
    ("X" : String).data ≠ [' ', 'X'] := by
  refine ⟨by decide, by decide, by decide, by decide⟩

/-- C4 (amended): for every nonempty batch sorted by entry number and every
response containing no `[n]` markers, if the number of non-empty lines of
the response equals the number of batch entries, the fallback succeeds and
assigns lines positionally: the i-th output entry is the i-th batch entry
with its text replaced by the i-th non-empty line trimmed of surrounding
whitespace. -/
theorem C4_fallback_positional (batch : List Subtitle) (resp : String)
    (hnomark : scanMarkers resp.data = [])
    (hne : batch ≠ [])
    (hsorted : List.Pairwise (fun a b => a.number ≤ b.number) batch)
    (hlen : (nonEmptyLines resp).length = batch.length) :
    ∃ out, reconcileBatchClient batch resp = some out ∧
      out.length = batch.length ∧
      ∀ (i : Nat), i < out.length → i < batch.length →
        ∀ (hi3 : i < (nonEmptyLines resp).length),
        out[i]? = some { batch.get ⟨i, by omega⟩ with
          text := String.mk (pyStrip ((nonEmptyLines resp)[i])) } := by
  refine ⟨(batch.zip (nonEmptyLines resp)).map
      (fun p => { p.1 with text := String.mk (pyStrip p.2) }), ?_, ?_, ?_⟩
  · simp only [reconcileBatchClient]
    rw [findallPairs_eq_nil hnomark]
    rw [if_pos rfl, if_neg hne]
    rw [if_pos (show batch.length ≤ 2 * (nonEmptyLines resp).length ∧
        (nonEmptyLines resp).length ≤ 2 * batch.length by omega)]
    rw [if_pos hlen]
    have htbnum : ((batch.zip (nonEmptyLines resp)).map
        (fun p => { p.1 with text := String.mk (pyStrip p.2) })).map
          Subtitle.number = batch.map Subtitle.number := by
      rw [List.map_map]
      have hmm : (Subtitle.number ∘ fun p : Subtitle × List Char =>
          { p.1 with text := String.mk (pyStrip p.2) }) =
          (Subtitle.number ∘ Prod.fst) := rfl
      rw [hmm, ← List.map_map]
      rw [List.map_fst_zip _ _ (by omega)]
    have hfilter : batch.filter (fun s => decide (s.number ∉
        ((batch.zip (nonEmptyLines resp)).map
          (fun p => { p.1 with text := String.mk (pyStrip p.2) })).map
            Subtitle.number)) = [] := by
      rw [List.filter_eq_nil_iff]
      intro s hs
      simp only [decide_eq_true_eq, not_not]
      rw [htbnum]
      exact List.mem_map.mpr ⟨s, hs, rfl⟩
    unfold gapFill
    rw [hfilter, List.append_nil]
    rw [sortByNumber_eq_of_sorted ?hsort]
    case hsort =>
      rw [List.pairwise_map]
      exact pairwise_zip_left hsorted
  · rw [List.length_map, List.length_zip]
    omega
  · intro i hi1 hi2 hi3
    rw [List.getElem?_eq_getElem hi1]
    congr 1
    rw [List.getElem_map, List.getElem_zip, List.get_eq_getElem]

theorem C4_fallback_positional_witness :
    scanMarkers ("Bonjour\nMonde" : String).data = [] ∧
    (∃ out, reconcileBatchClient
        [⟨1, "00:00:00,000", "00:00:01,000", "Hello"⟩,
         ⟨2, "00:00:01,000", "00:00:02,000", "World"⟩] "Bonjour\nMonde" =
          some out ∧
      out.length = ([⟨1, "00:00:00,000", "00:00:01,000", "Hello"⟩,
         ⟨2, "00:00:01,000", "00:00:02,000", "World"⟩] : List Subtitle).length ∧
      ∀ (i : Nat), i < out.length →
        ∀ (hi2 : i < ([⟨1, "00:00:00,000", "00:00:01,000", "Hello"⟩,
              ⟨2, "00:00:01,000", "00:00:02,000", "World"⟩] :
          List Subtitle).length)
          (hi3 : i < (nonEmptyLines "Bonjour\nMonde").length),
        out[i]? = some { ([⟨1, "00:00:00,000", "00:00:01,000", "Hello"⟩,
            ⟨2, "00:00:01,000", "00:00:02,000", "World"⟩] :
          List Subtitle).get ⟨i, hi2⟩ with
          text := String.mk (pyStrip ((nonEmptyLines "Bonjour\nMonde")[i])) }) :=
  ⟨by decide,
   C4_fallback_positional _ _ (by decide) (by decide) (by decide) (by decide)⟩

/-! ### Claims C6 and C8: the run loop -/

/-- The two events a successful batch emits, for a run of consecutive
successful batches starting at index `idx`. -/
def okEvents (client : Nat → Bool × String) (total : Nat) :
    Nat → List (List Subtitle) → List Event
  | _, [] => []
  | idx, b :: bs =>
    Event.batchCompleted idx (reconcileBatch b (client idx).2) ::
    Event.progress ((idx + 1) * 100 / total) ::
    okEvents client total (idx + 1) bs

/-- The translated entries accumulated over consecutive successful batches. -/
def accTrans (client : Nat → Bool × String) : Nat → List (List Subtitle) →
    List Subtitle
  | _, [] => []
  | idx, b :: bs => reconcileBatch b (client idx).2 ++ accTrans client (idx + 1) bs

lemma runAux_nil (client : Nat → Bool × String) (abortFlag : Nat → Bool)
    (total idx : Nat) (acc : List Subtitle) :
    runAux client abortFlag total idx [] acc =
      ([Event.finished true (format_srt acc)], []) := rfl

lemma runAux_cons_abort {client : Nat → Bool × String} {abortFlag : Nat → Bool}
    {total idx : Nat} {b : List Subtitle} {bs : List (List Subtitle)}
    {acc : List Subtitle} (hab : abortFlag idx = true) :
    runAux client abortFlag total idx (b :: bs) acc =
      ([Event.finished false "Translation aborted"], []) := by
  unfold runAux
  rw [if_pos hab]

lemma runAux_cons_ok {client : Nat → Bool × String} {abortFlag : Nat → Bool}
    {total idx : Nat} {b : List Subtitle} {bs : List (List Subtitle)}
    {acc : List Subtitle} (hab : abortFlag idx = false)
    (hok : (client idx).1 = true) :
    runAux client abortFlag total idx (b :: bs) acc =
      (Event.batchCompleted idx (reconcileBatch b (client idx).2) ::
        Event.progress ((idx + 1) * 100 / total) ::
        (runAux client abortFlag total (idx + 1) bs
          (acc ++ reconcileBatch b (client idx).2)).1,
       idx :: (runAux client abortFlag total (idx + 1) bs
          (acc ++ reconcileBatch b (client idx).2)).2) := by
  cases hcl : client idx with
  | mk ok txt =>
    rw [hcl] at hok
    simp only at hok
    subst hok
    conv_lhs => unfold runAux
    rw [if_neg (by simp [hab]), hcl]

lemma runAux_cons_fail {client : Nat → Bool × String} {abortFlag : Nat → Bool}
    {total idx : Nat} {b : List Subtitle} {bs : List (List Subtitle)}
    {acc : List Subtitle} (hab : abortFlag idx = false)
    (hfail : (client idx).1 = false) :
    runAux client abortFlag total idx (b :: bs) acc =
      ([Event.finished false ("Translation failed: " ++ (client idx).2)], [idx]) := by
  unfold runAux
  rw [if_neg (by simp [hab])]
  cases hcl : client idx with
  | mk ok txt =>
    rw [hcl] at hfail
    simp only at hfail
    subst hfail
    rfl

/-- Running a prefix of consecutive successful, unaborted batches produces
their events and continues at the next index. -/
lemma runAux_ok_prefix (client : Nat → Bool × String) (abortFlag : Nat → Bool)
    (total : Nat) :
    ∀ (bl1 bl2 : List (List Subtitle)) (idx : Nat) (acc : List Subtitle),
    (∀ i, i < bl1.length → abortFlag (idx + i) = false) →
    (∀ i, i < bl1.length → (client (idx + i)).1 = true) →
    runAux client abortFlag total idx (bl1 ++ bl2) acc =
      (okEvents client total idx bl1 ++
        (runAux client abortFlag total (idx + bl1.length) bl2
          (acc ++ accTrans client idx bl1)).1,
       List.range' idx bl1.length ++
        (runAux client abortFlag total (idx + bl1.length) bl2
          (acc ++ accTrans client idx bl1)).2) := by
  intro bl1
  induction bl1 with
  | nil =>
    intro bl2 idx acc _ _
    simp [okEvents, accTrans]
  | cons b bs ih =>
    intro bl2 idx acc hab hok
    rw [List.cons_append]
    rw [runAux_cons_ok (by simpa using hab 0 (by simp)) (by simpa using hok 0 (by simp))]
    rw [ih bl2 (idx + 1) (acc ++ reconcileBatch b (client idx).2)
      (fun i hi => by
        have := hab (i + 1) (by simp; omega)
        rwa [show idx + (i + 1) = idx + 1 + i by omega] at this)
      (fun i hi => by
        have := hok (i + 1) (by simp; omega)
        rwa [show idx + (i + 1) = idx + 1 + i by omega] at this)]
    have harith : idx + (bs.length + 1) = idx + 1 + bs.length := by omega
    rw [show okEvents client total idx (b :: bs) =
      Event.batchCompleted idx (reconcileBatch b (client idx).2) ::
      Event.progress ((idx + 1) * 100 / total) ::
      okEvents client total (idx + 1) bs from rfl]
    rw [show accTrans client idx (b :: bs) =
      reconcileBatch b (client idx).2 ++ accTrans client (idx + 1) bs from rfl]
    rw [List.length_cons, harith, ← List.append_assoc]
    rw [show List.range' idx (bs.length + 1) =
      idx :: List.range' (idx + 1) bs.length from rfl]
    rfl

/-- C8: if the cancellation flag is first observed set at the check before
batch `k` (all earlier checks unset, all earlier backend calls successful),
the run sends exactly batches `0..k-1` to the backend, emits exactly the
batch-completed/progress events of those batches followed by one finished
notification with the aborted reason, and stops; with `k = 0` nothing is
sent and no batch events are emitted. -/
theorem C8_cancellation (client : Nat → Bool × String) (abortFlag : Nat → Bool)
    (subs : List Subtitle) (bs k : Nat)
    (hk : k < (chunkList subs bs).length)
    (hpre : ∀ i, i < k → abortFlag i = false)
    (hab : abortFlag k = true)
    (hsucc : ∀ i, i < k → (client i).1 = true) :
    runSubtitles client abortFlag subs bs =
      (okEvents client (chunkList subs bs).length 0 ((chunkList subs bs).take k) ++
        [Event.finished false "Translation aborted"],
       List.range k) := by
  have htk : ((chunkList subs bs).take k).length = k := by
    rw [List.length_take]
    omega
  have happ := runAux_ok_prefix client abortFlag (chunkList subs bs).length
    ((chunkList subs bs).take k) ((chunkList subs bs).drop k) 0 []
    (fun i hi => by
      rw [htk] at hi
      simpa using hpre i hi)
    (fun i hi => by
      rw [htk] at hi
      simpa using hsucc i hi)
  rw [List.take_append_drop, htk] at happ
  have hdropne : (chunkList subs bs).drop k ≠ [] := by
    intro h0
    have := List.drop_eq_nil_iff.mp h0
    omega
  obtain ⟨b2, rest, hdrop⟩ := List.exists_cons_of_ne_nil hdropne
  rw [hdrop] at happ
  rw [runAux_cons_abort (by simpa using hab)] at happ
  show runAux client abortFlag (chunkList subs bs).length 0 (chunkList subs bs) [] = _
  rw [happ, List.append_nil, ← List.range_eq_range']

theorem C8_cancellation_witness :
    runSubtitles (fun _ => (true, "[9] T")) (fun i => decide (1 ≤ i))
      [⟨1, "00:00:00,000", "00:00:01,000", "a"⟩,
       ⟨2, "00:00:01,000", "00:00:02,000", "b"⟩] 1 =
      (okEvents (fun _ => (true, "[9] T"))
        (chunkList ([⟨1, "00:00:00,000", "00:00:01,000", "a"⟩,
          ⟨2, "00:00:01,000", "00:00:02,000", "b"⟩] : List Subtitle) 1).length 0
        ((chunkList ([⟨1, "00:00:00,000", "00:00:01,000", "a"⟩,
          ⟨2, "00:00:01,000", "00:00:02,000", "b"⟩] : List Subtitle) 1).take 1) ++
        [Event.finished false "Translation aborted"],
       List.range 1) :=
  C8_cancellation _ _ _ 1 1 (by decide) (by decide) (by decide) (by decide)

/-- C6 (counterexample): a failing backend call does abort the job
immediately, but the message in the finished notification is prefixed with
`"Translation failed: "`, not the backend's message verbatim. -/
theorem C6_failure_counterexample :
    runSubtitles (fun _ => (false, "boom")) (fun _ => false)
      [⟨1, "00:00:00,000", "00:00:01,000", "a"⟩] 1 =
      ([Event.finished false "Translation failed: boom"], [0]) ∧
    ("Translation failed: boom" : String) ≠ "boom" := by
  exact ⟨by decide, by decide⟩

/-- C6 (amended): when the backend call for batch `k` fails (all earlier
batches successful, no cancellation), the job ends immediately: only
batches `0..k` were ever sent (no retry, nothing after `k`), the events are
exactly those of the completed batches `0..k-1` followed by a single
finished notification whose message is the backend's message prefixed with
`"Translation failed: "`. -/
theorem C6_failure_propagation (client : Nat → Bool × String)
    (abortFlag : Nat → Bool) (subs : List Subtitle) (bs k : Nat) (msg : String)
    (hk : k < (chunkList subs bs).length)
    (hpre : ∀ i, i < k → abortFlag i = false)
    (hab : abortFlag k = false)
    (hsucc : ∀ i, i < k → (client i).1 = true)
    (hfail : client k = (false, msg)) :
    runSubtitles client abortFlag subs bs =
      (okEvents client (chunkList subs bs).length 0 ((chunkList subs bs).take k) ++
        [Event.finished false ("Translation failed: " ++ msg)],
       List.range (k + 1)) := by
  have htk : ((chunkList subs bs).take k).length = k := by
    rw [List.length_take]
    omega
  have happ := runAux_ok_prefix client abortFlag (chunkList subs bs).length
    ((chunkList subs bs).take k) ((chunkList subs bs).drop k) 0 []
    (fun i hi => by
      rw [htk] at hi
      simpa using hpre i hi)
    (fun i hi => by
      rw [htk] at hi
      simpa using hsucc i hi)
  rw [List.take_append_drop, htk] at happ
  have hdropne : (chunkList subs bs).drop k ≠ [] := by
    intro h0
    have := List.drop_eq_nil_iff.mp h0
    omega
  obtain ⟨b2, rest, hdrop⟩ := List.exists_cons_of_ne_nil hdropne
  rw [hdrop] at happ
  rw [runAux_cons_fail (by simpa using hab)
    (by rw [show (0 : Nat) + k = k from by omega, hfail])] at happ
  show runAux client abortFlag (chunkList subs bs).length 0 (chunkList subs bs) [] = _
  rw [happ]
  rw [show (0 : Nat) + k = k from by omega, hfail]
  rw [← List.range_eq_range', ← List.range_succ]

theorem C6_failure_propagation_witness :
    runSubtitles (fun i => if i = 0 then (true, "[9] T") else (false, "boom"))
      (fun _ => false)
      [⟨1, "00:00:00,000", "00:00:01,000", "a"⟩,
       ⟨2, "00:00:01,000", "00:00:02,000", "b"⟩] 1 =
      (okEvents (fun i => if i = 0 then (true, "[9] T") else (false, "boom"))
        (chunkList ([⟨1, "00:00:00,000", "00:00:01,000", "a"⟩,
          ⟨2, "00:00:01,000", "00:00:02,000", "b"⟩] : List Subtitle) 1).length 0
        ((chunkList ([⟨1, "00:00:00,000", "00:00:01,000", "a"⟩,
          ⟨2, "00:00:01,000", "00:00:02,000", "b"⟩] : List Subtitle) 1).take 1) ++
        [Event.finished false ("Translation failed: " ++ "boom")],
       List.range 2) :=
  C6_failure_propagation _ _ _ 1 1 "boom" (by decide) (by decide) (by decide)
    (by decide) (by decide)

end LocalTranslator
